import Mathlib

/-!
# Verification of the JSON diff viewer core (`src/App.tsx`)

This file shallowly embeds the core pipeline of the JSON diff viewer:

* `JsonValue` — the StructuredValue data model (parsed JSON);
* `serChars` / `stringify` — the compact serializer, modelling `JSON.stringify(x)`
  as used in the array-sort comparator of `normalizeForCompare`;
* `prettyChars` / `stringifyPretty` — the canonical serializer, modelling
  `JSON.stringify(x, null, 2)` as used by the pipeline and by `onFormat`;
* `deep` / `normalizeForCompare` — the normalizer of `src/App.tsx` lines 12–29;
* `jsonParse` / `tryParseJson` — the JSON decoder (spec-modelled: `JSON.parse`
  is a host-platform builtin, not part of the repository sources);
* `useJsonDiff` — the pipeline of `src/App.tsx` lines 31–48;
* `onFormat` — the "Format JSON" action of lines 59–64;
* `diffJson` — the line differencer (spec-modelled: it comes from the npm
  `diff` package, not from the repository sources);
* `renderedLines` / `diffText` — the two diff formatters of lines 71–114.

Modelling conventions:
* JavaScript numbers are modelled as `Int`; JSON fraction/exponent syntax is
  rejected by the modelled parser (the claims only exercise integers).
* `String.prototype.localeCompare` is modelled as lexicographic (code-point)
  string comparison, which is what the specification's "lexicographic order"
  prescribes; the host-locale collation of the real builtin is not observable
  in a pure embedding.
* JavaScript's stable `Array.prototype.sort` with a consistent comparator is
  modelled by `List.insertionSort`, which is stable and produces the unique
  stable sorted order for a total preorder comparator.
* JavaScript's numeric-first enumeration of array-index object keys is
  modelled in `Object.fromEntries` (`isArrayIndex` / `jsEnum`); the
  spec-modelled parser builds mappings in insertion order per the
  specification's mapping data model (§3) — no judged claim depends on the
  parser's key order.
-/

/-- StructuredValue: the parsed form of a JSON document.  Mappings are ordered
lists of key/value entries, mirroring JavaScript object insertion order. -/
inductive JsonValue where
  | null : JsonValue
  | bool (b : Bool) : JsonValue
  | num (n : Int) : JsonValue
  | str (s : String) : JsonValue
  | arr (elems : List JsonValue) : JsonValue
  | obj (entries : List (String × JsonValue)) : JsonValue

theorem sizeOf_snd_lt_of_mem_entries {e : String × JsonValue}
    {es : List (String × JsonValue)} (h : e ∈ es) : sizeOf e.2 < 1 + sizeOf es := by
  have h1 := List.sizeOf_lt_of_mem h
  obtain ⟨k, v⟩ := e
  simp only [Prod.mk.sizeOf_spec] at h1 ⊢
  omega

/-! ## The compact serializer: `JSON.stringify(x)`

Used by the source only inside the array-sort comparator
`(a, b) => JSON.stringify(a).localeCompare(JSON.stringify(b))`. -/

/-- The decimal digit character for `d < 10`. -/
def digitChar (d : Nat) : Char := Char.ofNat (48 + d)

/-- The lowercase hexadecimal digit character for `d < 16` (as produced by
`JSON.stringify` in `\u00xx` escapes). -/
def hexChar (d : Nat) : Char := if d < 10 then Char.ofNat (48 + d) else Char.ofNat (87 + d)

/-- Decimal digits of `n`, most significant first; `[]` for `n = 0`.
The first argument is structural fuel (`n` itself suffices). -/
def natCharsAux : Nat → Nat → List Char
  | 0, _ => []
  | fuel + 1, n => if n = 0 then [] else natCharsAux fuel (n / 10) ++ [digitChar (n % 10)]

/-- The decimal rendering of a natural number, as `Number.prototype.toString`. -/
def natChars (n : Nat) : List Char := if n = 0 then ['0'] else natCharsAux n n

/-- The decimal rendering of an integer, as `JSON.stringify` renders an
integral JavaScript number. -/
def intChars : Int → List Char
  | .ofNat n => natChars n
  | .negSucc m => '-' :: natChars (m + 1)

/-- The two-character escape code that `JSON.stringify` uses for `c`, when one
exists (`\"`, `\\`, `\b`, `\f`, `\n`, `\r`, `\t`). -/
def escCode (c : Char) : Option Char :=
  if c = '"' then some '"'
  else if c = '\\' then some '\\'
  else if c = Char.ofNat 8 then some 'b'
  else if c = Char.ofNat 12 then some 'f'
  else if c = '\n' then some 'n'
  else if c = '\r' then some 'r'
  else if c = '\t' then some 't'
  else none

/-- How `JSON.stringify` renders one character inside a string literal:
short escape codes for the seven special characters, `\u00xx` for the other
control characters, and the character itself otherwise. -/
def escChar (c : Char) : List Char :=
  match escCode c with
  | some e => ['\\', e]
  | none =>
    if c.toNat < 32 then
      ['\\', 'u', '0', '0', hexChar (c.toNat / 16), hexChar (c.toNat % 16)]
    else [c]

/-- Escape every character of a string body. -/
def escapeChars : List Char → List Char
  | [] => []
  | c :: cs => escChar c ++ escapeChars cs

/-- A JSON string literal: quote, escaped body, quote. -/
def quoteChars (s : List Char) : List Char := '"' :: (escapeChars s ++ ['"'])

/-- The rendering of the literal `null`. -/
def nullChars : List Char := ['n', 'u', 'l', 'l']

/-- The rendering of the literal `true`. -/
def trueChars : List Char := ['t', 'r', 'u', 'e']

/-- The rendering of the literal `false`. -/
def falseChars : List Char := ['f', 'a', 'l', 's', 'e']

mutual

/-- The compact serialization `JSON.stringify(x)`: no whitespace, `,` and `:`
separators, keys in entry order. -/
def serChars : JsonValue → List Char
  | .null => nullChars
  | .bool true => trueChars
  | .bool false => falseChars
  | .num i => intChars i
  | .str s => quoteChars s.data
  | .arr xs => '[' :: (serElems xs ++ [']'])
  | .obj es => '{' :: (serEntries es ++ ['}'])
termination_by v => sizeOf v
decreasing_by all_goals ((try obtain ⟨ek, ev⟩ := e) <;> simp_all [Prod.mk.sizeOf_spec] <;> omega)

/-- Array elements joined by `,`. -/
def serElems : List JsonValue → List Char
  | [] => []
  | [x] => serChars x
  | x :: y :: xs => serChars x ++ ',' :: serElems (y :: xs)
termination_by l => sizeOf l
decreasing_by all_goals ((try obtain ⟨ek, ev⟩ := e) <;> simp_all [Prod.mk.sizeOf_spec] <;> omega)

/-- Object entries `"key":value` joined by `,`. -/
def serEntries : List (String × JsonValue) → List Char
  | [] => []
  | [e] => quoteChars e.1.data ++ ':' :: serChars e.2
  | e :: f :: es => (quoteChars e.1.data ++ ':' :: serChars e.2) ++ ',' :: serEntries (f :: es)
termination_by l => sizeOf l
decreasing_by all_goals ((try obtain ⟨ek, ev⟩ := e) <;> simp_all [Prod.mk.sizeOf_spec] <;> omega)

end

/-- The compact serialization as a `String` (model of `JSON.stringify(x)`). -/
def stringify (v : JsonValue) : String := String.mk (serChars v)

/-! ## The canonical serializer: `JSON.stringify(x, null, 2)`

This is the Canonical Serializer of the specification: the pipeline turns both
normalized values into text with it before diffing, and `onFormat` writes its
output back into the editors. -/

/-- `n` spaces of indentation. -/
def indentChars (n : Nat) : List Char := List.replicate n ' '

mutual

/-- Pretty serialization with two-space indentation, exactly as
`JSON.stringify(x, null, 2)` lays it out.  `ind` is the indentation column of
the value's own opening token. -/
def prettyChars : Nat → JsonValue → List Char
  | _, .null => nullChars
  | _, .bool true => trueChars
  | _, .bool false => falseChars
  | _, .num i => intChars i
  | _, .str s => quoteChars s.data
  | _, .arr [] => ['[', ']']
  | ind, .arr (x :: xs) =>
    '[' :: '\n' :: (prettyElems (ind + 2) (x :: xs) ++ '\n' :: (indentChars ind ++ [']']))
  | _, .obj [] => ['{', '}']
  | ind, .obj (e :: es) =>
    '{' :: '\n' :: (prettyEntries (ind + 2) (e :: es) ++ '\n' :: (indentChars ind ++ ['}']))
termination_by _ v => sizeOf v
decreasing_by all_goals ((try obtain ⟨ek, ev⟩ := e) <;> simp_all [Prod.mk.sizeOf_spec] <;> omega)

/-- Pretty array elements, one per line, joined by `,\n`. -/
def prettyElems : Nat → List JsonValue → List Char
  | _, [] => []
  | ind, [x] => indentChars ind ++ prettyChars ind x
  | ind, x :: y :: xs =>
    (indentChars ind ++ prettyChars ind x) ++ ',' :: '\n' :: prettyElems ind (y :: xs)
termination_by _ l => sizeOf l
decreasing_by all_goals ((try obtain ⟨ek, ev⟩ := e) <;> simp_all [Prod.mk.sizeOf_spec] <;> omega)

/-- Pretty object entries `"key": value`, one per line, joined by `,\n`. -/
def prettyEntries : Nat → List (String × JsonValue) → List Char
  | _, [] => []
  | ind, [e] => indentChars ind ++ (quoteChars e.1.data ++ ':' :: ' ' :: prettyChars ind e.2)
  | ind, e :: f :: es =>
    (indentChars ind ++ (quoteChars e.1.data ++ ':' :: ' ' :: prettyChars ind e.2)) ++
      ',' :: '\n' :: prettyEntries ind (f :: es)
termination_by _ l => sizeOf l
decreasing_by all_goals ((try obtain ⟨ek, ev⟩ := e) <;> simp_all [Prod.mk.sizeOf_spec] <;> omega)

end

/-- The canonical (pretty) serialization as a `String`
(model of `JSON.stringify(x, null, 2)`). -/
def stringifyPretty (v : JsonValue) : String := String.mk (prettyChars 0 v)

/-- Is `c` a decimal digit? -/
def digitB (c : Char) : Bool := 48 ≤ c.toNat && c.toNat ≤ 57

/-- Numeric value of a digit character. -/
def digitVal (c : Char) : Nat := c.toNat - 48

/-- Numeric value of a digit string, most significant digit first. -/
def valOf (ds : List Char) : Nat := ds.foldl (fun a c => a * 10 + digitVal c) 0

/-! ## The normalizer: `normalizeForCompare` (`src/App.tsx` lines 12–29) -/

/-- The options record passed to `normalizeForCompare`. -/
structure NormOptions where
  sortKeys : Bool
  ignoreArrayOrder : Bool

/-- The array-sort comparator of line 20,
`(a, b) => JSON.stringify(a).localeCompare(JSON.stringify(b))`, as the total
preorder it sorts by (`localeCompare` modelled as lexicographic comparison). -/
def serLe (a b : JsonValue) : Prop := stringify a ≤ stringify b

instance : DecidableRel serLe := fun a b => inferInstanceAs (Decidable (_ ≤ _))

instance : IsTotal JsonValue serLe := ⟨fun a b => le_total (stringify a) (stringify b)⟩

instance : IsTrans JsonValue serLe := ⟨fun _ _ _ h1 h2 => le_trans h1 h2⟩

/-- The entry-sort comparator of line 24, `([a], [b]) => a.localeCompare(b)`:
entries ordered by their keys. -/
def keyLe (a b : String × JsonValue) : Prop := a.1 ≤ b.1

instance : DecidableRel keyLe := fun a b => inferInstanceAs (Decidable (_ ≤ _))

instance : IsTotal (String × JsonValue) keyLe := ⟨fun a b => le_total a.1 b.1⟩

instance : IsTrans (String × JsonValue) keyLe := ⟨fun _ _ _ h1 h2 => le_trans h1 h2⟩

/-- JavaScript property assignment on an entry list: overwrite the value in
place if the key exists (keeping its position), else append the new entry. -/
def setEntry : List (String × JsonValue) → String → JsonValue → List (String × JsonValue)
  | [], k, v => [(k, v)]
  | e :: es, k, v => if e.1 = k then (k, v) :: es else e :: setEntry es k v

/-- Is `s` an ECMAScript array index: a canonical decimal string (no leading
zero except `"0"` itself) whose numeric value is below `2^32 - 1`?  Ordinary
JavaScript objects enumerate such keys first, in ascending numeric order. -/
def isArrayIndex (s : String) : Bool :=
  match s.data with
  | [] => false
  | c :: cs =>
    (c :: cs).all digitB && (!(c == '0') || cs.isEmpty) &&
      valOf (c :: cs) < 4294967295

/-- Entry order by the numeric value of the (array-index) key. -/
def idxLe (a b : String × JsonValue) : Prop := valOf a.1.data ≤ valOf b.1.data

instance : DecidableRel idxLe := fun a b => inferInstanceAs (Decidable (_ ≤ _))

instance : IsTotal (String × JsonValue) idxLe :=
  ⟨fun a b => Nat.le_total (valOf a.1.data) (valOf b.1.data)⟩

instance : IsTrans (String × JsonValue) idxLe := ⟨fun _ _ _ h1 h2 => le_trans h1 h2⟩

/-- The own-property enumeration order of an ordinary JavaScript object whose
properties were created in the order of `raw` (keys pairwise distinct):
array-index keys first in ascending numeric order, then the remaining string
keys in creation order. -/
def jsEnum (raw : List (String × JsonValue)) : List (String × JsonValue) :=
  (raw.filter (fun e => isArrayIndex e.1)).insertionSort idxLe ++
    raw.filter (fun e => !isArrayIndex e.1)

/-- `Object.fromEntries`: create an ordinary object from an entry list —
later entries overwrite earlier ones with the same key (last-write-wins,
first creation position), and the resulting object enumerates array-index
keys first in ascending numeric order (`jsEnum`), as `Object.entries` and
`JSON.stringify` then observe. -/
def fromEntries (l : List (String × JsonValue)) : List (String × JsonValue) :=
  jsEnum (l.foldl (fun acc e => setEntry acc e.1 e.2) [])

/-- The recursive worker `deep` of `normalizeForCompare`: scalars pass through;
arrays are recursively normalized and, under `ignoreArrayOrder`, sorted by the
compact serialization of their normalized elements; object entries are
recursively normalized, sorted by key under `sortKeys`, and rebuilt with
`Object.fromEntries`. -/
def deep (sortKeys ignoreArrayOrder : Bool) : JsonValue → JsonValue
  | .null => .null
  | .bool b => .bool b
  | .num n => .num n
  | .str s => .str s
  | .arr xs =>
    let mapped := xs.attach.map (fun x => deep sortKeys ignoreArrayOrder x.1)
    .arr (if ignoreArrayOrder then mapped.insertionSort serLe else mapped)
  | .obj es =>
    let entries := es.attach.map (fun e => (e.1.1, deep sortKeys ignoreArrayOrder e.1.2))
    .obj (fromEntries (if sortKeys then entries.insertionSort keyLe else entries))
termination_by v => sizeOf v
decreasing_by
  · have := List.sizeOf_lt_of_mem x.2
    simp only [JsonValue.arr.sizeOf_spec]
    omega
  · have := sizeOf_snd_lt_of_mem_entries e.2
    simp only [JsonValue.obj.sizeOf_spec]
    omega

/-- `normalizeForCompare(value, options)` from `src/App.tsx`. -/
def normalizeForCompare (value : JsonValue) (options : NormOptions) : JsonValue :=
  deep options.sortKeys options.ignoreArrayOrder value

theorem deep_null (sk iao : Bool) : deep sk iao .null = .null := by simp [deep]

theorem deep_bool (sk iao : Bool) (b : Bool) : deep sk iao (.bool b) = .bool b := by
  simp [deep]

theorem deep_num (sk iao : Bool) (n : Int) : deep sk iao (.num n) = .num n := by simp [deep]

theorem deep_str (sk iao : Bool) (s : String) : deep sk iao (.str s) = .str s := by
  simp [deep]

theorem deep_arr (sk iao : Bool) (xs : List JsonValue) :
    deep sk iao (.arr xs) =
      .arr (if iao then (xs.map (deep sk iao)).insertionSort serLe
            else xs.map (deep sk iao)) := by
  rw [deep, List.attach_map_val xs (deep sk iao)]

theorem deep_obj (sk iao : Bool) (es : List (String × JsonValue)) :
    deep sk iao (.obj es) =
      .obj (fromEntries
        (if sk then (es.map (fun e => (e.1, deep sk iao e.2))).insertionSort keyLe
         else es.map (fun e => (e.1, deep sk iao e.2)))) := by
  rw [deep, List.attach_map_val es (fun e => (e.1, deep sk iao e.2))]

/-- The element list of an array value (else empty). -/
def elemsOf : JsonValue → List JsonValue
  | .arr xs => xs
  | _ => []

/-- The entry list of an object value (else empty). -/
def entriesOf : JsonValue → List (String × JsonValue)
  | .obj es => es
  | _ => []

/-! ## The parser (spec-modelled `JSON.parse`) -/

/-- JSON insignificant whitespace. -/
def jsonWs (c : Char) : Bool := c = ' ' || c = '\t' || c = '\n' || c = '\r'

/-- Skip leading JSON whitespace. -/
def pSkip (cs : List Char) : List Char := cs.dropWhile jsonWs

/-- Value of a hexadecimal digit character. -/
def hexVal (c : Char) : Option Nat :=
  if 48 ≤ c.toNat ∧ c.toNat ≤ 57 then some (c.toNat - 48)
  else if 97 ≤ c.toNat ∧ c.toNat ≤ 102 then some (c.toNat - 87)
  else if 65 ≤ c.toNat ∧ c.toNat ≤ 70 then some (c.toNat - 55)
  else none

/-- Parse the body of a JSON string literal after the opening quote, with the
standard escapes; `acc` holds the already-read characters reversed.
(Surrogate pairs in `\uXXXX` escapes are not combined in this model.) -/
def pStrAux : List Char → List Char → Except String (String × List Char)
  | [], _ => .error "Unexpected end of JSON input"
  | c :: rest, acc =>
    if c = '"' then .ok (String.mk acc.reverse, rest)
    else if c = '\\' then
      match rest with
      | [] => .error "Unexpected end of JSON input"
      | e :: rest2 =>
        if e = '"' then pStrAux rest2 ('"' :: acc)
        else if e = '\\' then pStrAux rest2 ('\\' :: acc)
        else if e = '/' then pStrAux rest2 ('/' :: acc)
        else if e = 'b' then pStrAux rest2 (Char.ofNat 8 :: acc)
        else if e = 'f' then pStrAux rest2 (Char.ofNat 12 :: acc)
        else if e = 'n' then pStrAux rest2 ('\n' :: acc)
        else if e = 'r' then pStrAux rest2 ('\r' :: acc)
        else if e = 't' then pStrAux rest2 ('\t' :: acc)
        else if e = 'u' then
          match rest2 with
          | h1 :: h2 :: h3 :: h4 :: rest6 =>
            match hexVal h1, hexVal h2, hexVal h3, hexVal h4 with
            | some a, some b, some c2, some d =>
              pStrAux rest6 (Char.ofNat (((a * 16 + b) * 16 + c2) * 16 + d) :: acc)
            | _, _, _, _ => .error "Bad Unicode escape in string literal"
          | _ => .error "Unexpected end of JSON input"
        else .error "Bad escaped character in string literal"
    else if c.toNat < 32 then .error "Bad control character in string literal"
    else pStrAux rest (c :: acc)

/-- Match an exact literal suffix, returning the remaining input. -/
def pLit : List Char → List Char → Option (List Char)
  | [], cs => some cs
  | _ :: _, [] => none
  | e :: es, c :: cs => if c = e then pLit es cs else none

/-- Numeric value of a list of decimal digit characters. -/
def digitsToNat (ds : List Char) : Nat := ds.foldl (fun a c => a * 10 + (c.toNat - 48)) 0

/-- Parse a JSON number.  The model restricts numbers to integer syntax
(JavaScript numbers are doubles; the claims only exercise integers). -/
def pNum (cs : List Char) : Except String (JsonValue × List Char) :=
  let neg := match cs with | '-' :: _ => true | _ => false
  let cs1 := match cs with | '-' :: r => r | _ => cs
  let ds := cs1.takeWhile Char.isDigit
  let rest := cs1.dropWhile Char.isDigit
  if ds.isEmpty then .error "Unexpected token"
  else if 1 < ds.length ∧ ds.head? = some '0' then .error "Unexpected number"
  else
    match rest with
    | '.' :: _ => .error "Unsupported number syntax in model"
    | 'e' :: _ => .error "Unsupported number syntax in model"
    | 'E' :: _ => .error "Unsupported number syntax in model"
    | _ =>
      let n : Int := Int.ofNat (digitsToNat ds)
      .ok (.num (if neg then -n else n), rest)

mutual

/-- Parse one JSON value; the `Nat` argument is recursion fuel. -/
def pVal : Nat → List Char → Except String (JsonValue × List Char)
  | 0, _ => .error "Model parser fuel exhausted"
  | fuel + 1, cs =>
    match pSkip cs with
    | [] => .error "Unexpected end of JSON input"
    | c :: rest =>
      if c = 'n' then
        match pLit ['u', 'l', 'l'] rest with
        | some r => .ok (.null, r)
        | none => .error "Unexpected token"
      else if c = 't' then
        match pLit ['r', 'u', 'e'] rest with
        | some r => .ok (.bool true, r)
        | none => .error "Unexpected token"
      else if c = 'f' then
        match pLit ['a', 'l', 's', 'e'] rest with
        | some r => .ok (.bool false, r)
        | none => .error "Unexpected token"
      else if c = '"' then
        match pStrAux rest [] with
        | .ok (s, r) => .ok (.str s, r)
        | .error m => .error m
      else if c = '[' then
        match pSkip rest with
        | ']' :: r => .ok (.arr [], r)
        | cs2 => pItems fuel [] cs2
      else if c = '{' then
        match pSkip rest with
        | '}' :: r => .ok (.obj [], r)
        | cs2 => pMembers fuel [] cs2
      else if c = '-' || c.isDigit then pNum (c :: rest)
      else .error "Unexpected token"

/-- Parse the elements of a non-empty array; `acc` holds parsed elements
reversed. -/
def pItems : Nat → List JsonValue → List Char → Except String (JsonValue × List Char)
  | 0, _, _ => .error "Model parser fuel exhausted"
  | fuel + 1, acc, cs =>
    match pVal fuel cs with
    | .error m => .error m
    | .ok (v, rest) =>
      match pSkip rest with
      | ',' :: r => pItems fuel (v :: acc) r
      | ']' :: r => .ok (.arr (v :: acc).reverse, r)
      | _ => .error "Expected comma or closing bracket after array element"

/-- Parse the members of a non-empty object; duplicate keys collapse
last-write-wins via `setEntry`, as JavaScript object assignment does. -/
def pMembers : Nat → List (String × JsonValue) → List Char →
    Except String (JsonValue × List Char)
  | 0, _, _ => .error "Model parser fuel exhausted"
  | fuel + 1, acc, cs =>
    match pSkip cs with
    | '"' :: rest =>
      match pStrAux rest [] with
      | .error m => .error m
      | .ok (k, rest2) =>
        match pSkip rest2 with
        | ':' :: rest3 =>
          match pVal fuel rest3 with
          | .error m => .error m
          | .ok (v, rest4) =>
            match pSkip rest4 with
            | ',' :: r => pMembers fuel (setEntry acc k v) r
            | '}' :: r => .ok (.obj (setEntry acc k v), r)
            | _ => .error "Expected comma or closing brace after object member"
        | _ => .error "Expected colon after object key"
    | _ => .error "Expected string key in object"

end

/-- Modelled from the spec: the Parser component.  The source calls the host
builtin `JSON.parse`, which is not part of the repository; this model decodes a
single JSON document or fails with a decoder message (§4.1 of the spec), with
integer-only numbers and last-write-wins duplicate keys. -/
def jsonParse (input : String) : Except String JsonValue :=
  let cs := input.data
  match pVal (2 * cs.length + 2) cs with
  | .error m => .error m
  | .ok (v, rest) =>
    match pSkip rest with
    | [] => .ok v
    | _ => .error "Unexpected non-whitespace character after JSON data"

/-- `tryParseJson` from `src/App.tsx` lines 4–10: the decoded value, or the
thrown decoder error (carrying its message) as a first-class result. -/
def tryParseJson (input : String) : Except String JsonValue := jsonParse input

/-! ## JavaScript semantics of the error-message expression (line 37)

`String((beforeParsed as Error)?.message || (afterParsed as Error)?.message)`
reads a `message` property off whichever object is at hand — including a
successfully parsed JSON value — then takes the first truthy one, then
converts with `String(...)`. -/

/-- Is this value `null`? -/
def isNull : JsonValue → Bool
  | .null => true
  | _ => false

/-- JavaScript property lookup on a parsed object's entry list. -/
def lookupProp (es : List (String × JsonValue)) (k : String) : Option JsonValue :=
  (es.find? (fun e => e.1 == k)).map (fun e => e.2)

/-- JavaScript truthiness of a JSON value. -/
def jsTruthy : JsonValue → Bool
  | .null => false
  | .bool b => b
  | .num n => decide (n ≠ 0)
  | .str s => decide (s ≠ "")
  | .arr _ => true
  | .obj _ => true

/-- JavaScript `String(v)` for a JSON value: arrays join their elements with
commas (`null` elements become empty), objects print `[object Object]`. -/
def jsStr : JsonValue → String
  | .null => "null"
  | .bool true => "true"
  | .bool false => "false"
  | .num n => String.mk (intChars n)
  | .str s => s
  | .arr xs =>
    String.intercalate ","
      (xs.attach.map (fun x => if isNull x.1 then "" else jsStr x.1))
  | .obj _ => "[object Object]"
termination_by v => sizeOf v
decreasing_by
  · have := List.sizeOf_lt_of_mem x.2
    simp only [JsonValue.arr.sizeOf_spec]
    omega

/-- `(r as Error)?.message`: an `Error`'s message, or the `message` property of
a successfully parsed object value; `undefined` (`none`) otherwise. -/
def msgOf : Except String JsonValue → Option JsonValue
  | .error m => some (.str m)
  | .ok (.obj es) => lookupProp es "message"
  | .ok _ => none

/-- JavaScript `a || b` on possibly-`undefined` values. -/
def jsOr (a b : Option JsonValue) : Option JsonValue :=
  match a with
  | some v => if jsTruthy v then some v else b
  | none => b

/-- JavaScript `String(x)` on a possibly-`undefined` value. -/
def jsToString : Option JsonValue → String
  | none => "undefined"
  | some v => jsStr v

/-! ## The line differencer (spec-modelled `diffJson` from the `diff` package) -/

/-- One hunk of the edit script, in the shape the source reads
(`part.added`, `part.removed`, `part.value`). -/
structure Change where
  added : Bool
  removed : Bool
  value : String

/-- Split a character list into lines, each keeping its trailing `'\n'`, so
that concatenating the pieces reproduces the input exactly. -/
def splitKeepNL (cs : List Char) : List (List Char) :=
  cs.foldr
    (fun c acc =>
      if c = '\n' then [c] :: acc
      else
        match acc with
        | [] => [[c]]
        | l :: ls => (c :: l) :: ls)
    []

/-- Number of non-`unchanged` hunks of a script. -/
def changeCount (l : List Change) : Nat := l.countP (fun c => c.added || c.removed)

/-- Minimal line-level edit script between two line lists: equal heads are
emitted `unchanged`; otherwise the cheaper of deleting the left head or
inserting the right head is chosen. -/
def diffLinesRec : List (List Char) → List (List Char) → List Change
  | [], [] => []
  | [], b :: bs => ⟨true, false, String.mk b⟩ :: diffLinesRec [] bs
  | a :: as, [] => ⟨false, true, String.mk a⟩ :: diffLinesRec as []
  | a :: as, b :: bs =>
    if a = b then ⟨false, false, String.mk a⟩ :: diffLinesRec as bs
    else
      let d1 := ⟨false, true, String.mk a⟩ :: diffLinesRec as (b :: bs)
      let d2 := ⟨true, false, String.mk b⟩ :: diffLinesRec (a :: as) bs
      if changeCount d1 ≤ changeCount d2 then d1 else d2
termination_by as bs => as.length + bs.length
decreasing_by all_goals simp <;> omega

/-- Modelled from the spec: the Line Differencer (§4.4).  The source calls
`diffJson` from the npm `diff` package, which is not part of the repository;
this model computes a deterministic minimal unchanged/added/removed line
script whose hunk concatenation reconstructs the inputs. -/
def diffJson (before after : String) : List Change :=
  diffLinesRec (splitKeepNL before.data) (splitKeepNL after.data)

/-! ## The pipeline: `useJsonDiff` (`src/App.tsx` lines 31–48) -/

/-- JavaScript whitespace for `String.prototype.trim` (the common subset;
exotic unicode space characters behave the same way). -/
def jsWsChar (c : Char) : Bool :=
  c = ' ' || c = '\t' || c = '\n' || c = '\r' || c = Char.ofNat 11 ||
    c = Char.ofNat 12 || c = Char.ofNat 160 || c = Char.ofNat 65279

/-- Model of `String.prototype.trim`: drop leading and trailing whitespace. -/
def jsTrim (s : String) : String :=
  String.mk (((s.data.dropWhile jsWsChar).reverse.dropWhile jsWsChar).reverse)

/-- The result of `useJsonDiff`: a `Change[]` edit script on success, or the
`{ error }` object on a parse failure. -/
inductive DiffResult where
  | changes (parts : List Change)
  | error (message : String)

/-- `useJsonDiff(beforeText, afterText, sortKeys, ignoreArrayOrder)`: parse
both trimmed sides; if either fails, return the `{ error }` value built from
`String(before?.message || after?.message)`; otherwise normalize both sides,
serialize canonically and diff. -/
def useJsonDiff (beforeText afterText : String) (sortKeys ignoreArrayOrder : Bool) :
    DiffResult :=
  let beforeParsed := tryParseJson (jsTrim beforeText)
  let afterParsed := tryParseJson (jsTrim afterText)
  match beforeParsed, afterParsed with
  | .ok bv, .ok av =>
    let beforeNorm := normalizeForCompare bv ⟨sortKeys, ignoreArrayOrder⟩
    let afterNorm := normalizeForCompare av ⟨sortKeys, ignoreArrayOrder⟩
    let beforeStr := stringifyPretty beforeNorm
    let afterStr := stringifyPretty afterNorm
    .changes (diffJson beforeStr afterStr)
  | _, _ => .error (jsToString (jsOr (msgOf beforeParsed) (msgOf afterParsed)))

/-- The "Format JSON" action (`src/App.tsx` lines 59–64): re-serialize each
side that parses; a side whose parse failed keeps its raw text. -/
def onFormat (before after : String) : String × String :=
  let b := tryParseJson before
  let a := tryParseJson after
  (match b with
   | .ok v => stringifyPretty v
   | .error _ => before,
   match a with
   | .ok v => stringifyPretty v
   | .error _ => after)

/-! ## The diff formatters (`src/App.tsx` lines 71–114) -/

/-- Hunk kind as the source derives it per part. -/
inductive HunkKind where
  | unchanged : HunkKind
  | added : HunkKind
  | removed : HunkKind

/-- `part.added ? ... : part.removed ? ... : ...` — the kind of one hunk. -/
def kindOf (part : Change) : HunkKind :=
  if part.added then .added else if part.removed then .removed else .unchanged

/-- The display marker of a hunk kind: `"+ "`, `"- "`, `"  "`. -/
def lineMark : HunkKind → String
  | .added => "+ "
  | .removed => "- "
  | .unchanged => "  "

/-- One displayed line: its hunk kind and its text (without the marker). -/
structure RenderedLine where
  kind : HunkKind
  content : String

/-- The split-loop body shared by both formatters: every fragment of
`text.split('\n')` is kept except a single final empty fragment. -/
def emitLines : List String → List String
  | [] => []
  | [l] => if l = "" then [] else [l]
  | l :: l2 :: ls => l :: emitLines (l2 :: ls)

/-- The rendered line list of `renderedLines` (lines 71–95): for each part,
split its text on `'\n'`, drop a single trailing empty fragment, and emit one
line per fragment with the part's kind. -/
def renderedLines (diff : List Change) : List RenderedLine :=
  diff.flatMap (fun part =>
    (emitLines (part.value.splitOn "\n")).map (fun line => ⟨kindOf part, line⟩))

/-- The line list built by `diffText` (lines 97–114): for each part, split its
text on `'\n'`, drop a single trailing empty fragment, and push each fragment
prefixed with the part's marker. -/
def diffTextLines (diff : List Change) : List String :=
  diff.flatMap (fun part =>
    (emitLines (part.value.splitOn "\n")).map (fun line => lineMark (kindOf part) ++ line))

/-- `diffText`: the copyable text form of the result. -/
def diffText : DiffResult → String
  | .changes parts => String.intercalate "\n" (diffTextLines parts)
  | .error e => "JSON parse error: " ++ e

/-! ## Auxiliary definitions for the verification -/

/-- The key list of an entry list. -/
def keysOf (l : List (String × JsonValue)) : List String := l.map Prod.fst

/-- Characters that can occur in a serialized number. -/
def numChar (c : Char) : Bool := c = '-' || digitB c

/-- A boundary context for serialized-value cancellation: the serialization of
a value inside a document is always followed by the end of the document or by
one of `,`, `]`, `}`. -/
def Bnd : List Char → Prop
  | [] => True
  | c :: _ => c = ',' ∨ c = ']' ∨ c = '}'

/-- Classify a character by which kind of serialized value it can start. -/
def startTag (c : Char) : Nat :=
  if c = 'n' then 0
  else if c = 't' then 1
  else if c = 'f' then 2
  else if numChar c then 3
  else if c = '"' then 4
  else if c = '[' then 5
  else if c = '{' then 6
  else 7

/-- Constructor classification matching `startTag` of the first serialized
character. -/
def ctorTag : JsonValue → Nat
  | .null => 0
  | .bool b => if b then 1 else 2
  | .num _ => 3
  | .str _ => 4
  | .arr _ => 5
  | .obj _ => 6

/-- `PermEq v w`: `w` is `v` with some permutation applied to each of its
sequences, at any nesting depth (the `permute(v, π)` of the specification's
order-insensitivity property). -/
def PermEq : JsonValue → JsonValue → Prop
  | .null, .null => True
  | .bool a, .bool b => a = b
  | .num a, .num b => a = b
  | .str a, .str b => a = b
  | .arr xs, .arr ys =>
    ∃ ms : List JsonValue, ms.Perm ys ∧ ∃ h : xs.length = ms.length,
      ∀ i : Fin xs.length, PermEq (xs.get i) (ms.get (Fin.cast h i))
  | .obj es, .obj fs =>
    ∃ h : es.length = fs.length,
      ∀ i : Fin es.length, (es.get i).1 = (fs.get (Fin.cast h i)).1 ∧
        PermEq ((es.get i).2) ((fs.get (Fin.cast h i)).2)
  | _, _ => False
termination_by v _ => sizeOf v
decreasing_by
  · have := List.sizeOf_lt_of_mem (xs.get_mem i i.2)
    simp only [Fin.eta] at this
    simp only [JsonValue.arr.sizeOf_spec]
    omega
  · have := sizeOf_snd_lt_of_mem_entries (es.get_mem i i.2)
    simp only [Fin.eta] at this
    simp only [JsonValue.obj.sizeOf_spec]
    omega

/-- The sequence rule of claim C2 taken at the spec's word: elements reordered
by the lexicographic order of each element's canonical serialization — the
serialized form the Canonical Serializer (`JSON.stringify(x, null, 2)`)
produces — rather than by the compact form the code actually uses. -/
def canonLe (a b : JsonValue) : Prop := stringifyPretty a ≤ stringifyPretty b

instance : DecidableRel canonLe := fun a b => inferInstanceAs (Decidable (_ ≤ _))

/-- The normalizer as claim C2 words it: identical to `deep` except that,
under `ignoreArrayOrder`, sequence elements are reordered by their canonical
(pretty) serialization instead of their compact serialization. -/
def deepSpec (sortKeys ignoreArrayOrder : Bool) : JsonValue → JsonValue
  | .null => .null
  | .bool b => .bool b
  | .num n => .num n
  | .str s => .str s
  | .arr xs =>
    let mapped := xs.attach.map (fun x => deepSpec sortKeys ignoreArrayOrder x.1)
    .arr (if ignoreArrayOrder then mapped.insertionSort canonLe else mapped)
  | .obj es =>
    let entries := es.attach.map (fun e => (e.1.1, deepSpec sortKeys ignoreArrayOrder e.1.2))
    .obj (fromEntries (if sortKeys then entries.insertionSort keyLe else entries))
termination_by v => sizeOf v
decreasing_by
  · have := List.sizeOf_lt_of_mem x.2
    simp only [JsonValue.arr.sizeOf_spec]
    omega
  · have := sizeOf_snd_lt_of_mem_entries e.2
    simp only [JsonValue.obj.sizeOf_spec]
    omega

/-! ## General infrastructure -/

theorem JsonValue.inductionOn {P : JsonValue → Prop}
    (hnull : P .null) (hbool : ∀ b, P (.bool b)) (hnum : ∀ n, P (.num n))
    (hstr : ∀ s, P (.str s))
    (harr : ∀ xs, (∀ x ∈ xs, P x) → P (.arr xs))
    (hobj : ∀ es, (∀ e ∈ es, P e.2) → P (.obj es)) : ∀ v, P v := by
  have H : ∀ n v, sizeOf v ≤ n → P v := by
    intro n
    induction n with
    | zero =>
      intro v hv
      exfalso
      cases v <;> simp_all <;> omega
    | succ n ih =>
      intro v hv
      cases v with
      | null => exact hnull
      | bool b => exact hbool b
      | num m => exact hnum m
      | str s => exact hstr s
      | arr xs =>
        refine harr xs (fun x hx => ih x ?_)
        have := List.sizeOf_lt_of_mem hx
        simp only [JsonValue.arr.sizeOf_spec] at hv
        omega
      | obj es =>
        refine hobj es (fun e he => ih e.2 ?_)
        have := sizeOf_snd_lt_of_mem_entries he
        simp only [JsonValue.obj.sizeOf_spec] at hv
        omega
  exact fun v => H (sizeOf v) v le_rfl

theorem String.data_injective : Function.Injective String.data := by
  intro a b h
  cases a
  cases b
  exact congrArg String.mk h

theorem deepSpec_arr (sk iao : Bool) (xs : List JsonValue) :
    deepSpec sk iao (.arr xs) =
      .arr (if iao then (xs.map (deepSpec sk iao)).insertionSort canonLe
            else xs.map (deepSpec sk iao)) := by
  rw [deepSpec, List.attach_map_val xs (deepSpec sk iao)]

theorem deepSpec_obj (sk iao : Bool) (es : List (String × JsonValue)) :
    deepSpec sk iao (.obj es) =
      .obj (fromEntries
        (if sk then (es.map (fun e => (e.1, deepSpec sk iao e.2))).insertionSort keyLe
         else es.map (fun e => (e.1, deepSpec sk iao e.2)))) := by
  rw [deepSpec, List.attach_map_val es (fun e => (e.1, deepSpec sk iao e.2))]

/-! ### `setEntry` and `fromEntries` -/

theorem keysOf_nil : keysOf [] = [] := rfl

theorem keysOf_cons (f : String × JsonValue) (fs : List (String × JsonValue)) :
    keysOf (f :: fs) = f.1 :: keysOf fs := rfl

theorem keysOf_append (l1 l2 : List (String × JsonValue)) :
    keysOf (l1 ++ l2) = keysOf l1 ++ keysOf l2 := by
  simp [keysOf]

theorem mem_setEntry {e : String × JsonValue} :
    ∀ {es : List (String × JsonValue)} {k : String} {v : JsonValue},
      e ∈ setEntry es k v → e ∈ es ∨ e = (k, v) := by
  intro es
  induction es with
  | nil =>
    intro k v h
    simp [setEntry] at h
    exact Or.inr h
  | cons f fs ih =>
    intro k v h
    by_cases hf : f.1 = k
    · rw [setEntry, if_pos hf] at h
      rcases List.mem_cons.mp h with h | h
      · exact Or.inr h
      · exact Or.inl (List.mem_cons_of_mem f h)
    · rw [setEntry, if_neg hf] at h
      rcases List.mem_cons.mp h with h | h
      · exact Or.inl (h ▸ List.mem_cons_self f fs)
      · rcases ih h with h2 | h2
        · exact Or.inl (List.mem_cons_of_mem f h2)
        · exact Or.inr h2

theorem keysOf_setEntry_of_mem : ∀ {es : List (String × JsonValue)} {k : String}
    {v : JsonValue}, k ∈ keysOf es → keysOf (setEntry es k v) = keysOf es := by
  intro es
  induction es with
  | nil =>
    intro k v h
    simp [keysOf_nil] at h
  | cons f fs ih =>
    intro k v h
    by_cases hf : f.1 = k
    · rw [setEntry, if_pos hf, keysOf_cons, keysOf_cons, hf]
    · have h2 : k ∈ keysOf fs := by
        rw [keysOf_cons] at h
        rcases List.mem_cons.mp h with h3 | h3
        · exact absurd h3.symm hf
        · exact h3
      rw [setEntry, if_neg hf, keysOf_cons, keysOf_cons, ih h2]

theorem setEntry_of_not_mem : ∀ {es : List (String × JsonValue)} {k : String}
    {v : JsonValue}, k ∉ keysOf es → setEntry es k v = es ++ [(k, v)] := by
  intro es
  induction es with
  | nil =>
    intro k v _
    simp [setEntry]
  | cons f fs ih =>
    intro k v h
    rw [keysOf_cons] at h
    have h1 : ¬(f.1 = k) := fun hc => h (hc ▸ List.mem_cons_self _ _)
    have h2 : k ∉ keysOf fs := fun hc => h (List.mem_cons_of_mem _ hc)
    rw [setEntry, if_neg h1, ih h2, List.cons_append]

/-- Elements of a `fromEntries` fold come from the accumulator or the input. -/
theorem mem_foldl_setEntry {e : String × JsonValue} :
    ∀ (l acc : List (String × JsonValue)),
      e ∈ l.foldl (fun acc f => setEntry acc f.1 f.2) acc → e ∈ acc ∨ e ∈ l := by
  intro l
  induction l with
  | nil => intro acc h; exact Or.inl h
  | cons f fs ih =>
    intro acc h
    rcases ih (setEntry acc f.1 f.2) h with h2 | h2
    · rcases mem_setEntry h2 with h3 | h3
      · exact Or.inl h3
      · exact Or.inr (by simp [h3])
    · exact Or.inr (List.mem_cons_of_mem f h2)

/-- The key list of a `fromEntries` fold is a sublist of the concatenated key
lists. -/
theorem keysOf_foldl_setEntry_sublist :
    ∀ (l acc : List (String × JsonValue)),
      (keysOf (l.foldl (fun acc f => setEntry acc f.1 f.2) acc)).Sublist
        (keysOf acc ++ keysOf l) := by
  intro l
  induction l with
  | nil => intro acc; simpa [keysOf_nil] using List.Sublist.refl _
  | cons f fs ih =>
    intro acc
    rw [List.foldl_cons, keysOf_cons]
    by_cases hf : f.1 ∈ keysOf acc
    · have step := ih (setEntry acc f.1 f.2)
      rw [keysOf_setEntry_of_mem hf] at step
      refine step.trans ?_
      exact List.Sublist.append_left (List.sublist_cons_self _ _) _
    · rw [setEntry_of_not_mem hf]
      refine (ih (acc ++ [(f.1, f.2)])).trans ?_
      rw [keysOf_append, List.append_assoc, keysOf_cons, keysOf_nil]
      exact List.Sublist.refl _

/-- The `fromEntries` fold produces pairwise-distinct keys. -/
theorem nodup_keysOf_foldl_setEntry :
    ∀ (l acc : List (String × JsonValue)), (keysOf acc).Nodup →
      (keysOf (l.foldl (fun acc f => setEntry acc f.1 f.2) acc)).Nodup := by
  intro l
  induction l with
  | nil => intro acc h; exact h
  | cons f fs ih =>
    intro acc h
    rw [List.foldl_cons]
    refine ih _ ?_
    by_cases hf : f.1 ∈ keysOf acc
    · rw [keysOf_setEntry_of_mem hf]; exact h
    · rw [setEntry_of_not_mem hf, keysOf_append, keysOf_cons, keysOf_nil]
      rw [List.nodup_append]
      refine ⟨h, List.nodup_singleton _, ?_⟩
      intro a ha hc
      simp at hc
      exact hf (hc ▸ ha)

/-- On an entry list with pairwise-distinct keys, the `fromEntries` fold only
appends. -/
theorem foldl_setEntry_eq_append :
    ∀ (l acc : List (String × JsonValue)), (keysOf (acc ++ l)).Nodup →
      l.foldl (fun acc f => setEntry acc f.1 f.2) acc = acc ++ l := by
  intro l
  induction l with
  | nil => intro acc _; simp
  | cons f fs ih =>
    intro acc h
    have hf : f.1 ∉ keysOf acc := by
      rw [keysOf_append, List.nodup_append] at h
      intro hc
      exact h.2.2 hc (by rw [keysOf_cons]; exact List.mem_cons_self _ _)
    rw [List.foldl_cons, setEntry_of_not_mem hf, ih (acc ++ [f])]
    · simp
    · have he : (acc ++ [f]) ++ fs = acc ++ f :: fs := by simp
      rw [he]
      exact h

/-- `Sorted keyLe` is a statement about the key list. -/
theorem sorted_keyLe_iff {l : List (String × JsonValue)} :
    l.Sorted keyLe ↔ (keysOf l).Pairwise (· ≤ ·) := by
  unfold keysOf
  rw [List.pairwise_map]
  exact Iff.rfl

/-- The `fromEntries` fold preserves key-sortedness (it keeps creation
positions and only drops overwritten duplicates). -/
theorem fold_keyLe_sorted {l : List (String × JsonValue)} (h : l.Sorted keyLe) :
    (l.foldl (fun acc e => setEntry acc e.1 e.2) []).Sorted keyLe := by
  rw [sorted_keyLe_iff] at h ⊢
  exact h.sublist (by simpa [keysOf_nil] using keysOf_foldl_setEntry_sublist l [])

/-- Re-enumeration permutes the entries. -/
theorem jsEnum_perm (raw : List (String × JsonValue)) : (jsEnum raw).Perm raw := by
  unfold jsEnum
  refine List.Perm.trans ?_ (List.filter_append_perm (fun e => isArrayIndex e.1) raw)
  exact (List.perm_insertionSort idxLe _).append_right _

theorem mem_fromEntries {e : String × JsonValue} {l : List (String × JsonValue)}
    (h : e ∈ fromEntries l) : e ∈ l := by
  unfold fromEntries at h
  have h2 := (jsEnum_perm _).mem_iff.mp h
  rcases mem_foldl_setEntry l [] h2 with h3 | h3
  · simp at h3
  · exact h3

theorem nodup_keysOf_fromEntries (l : List (String × JsonValue)) :
    (keysOf (fromEntries l)).Nodup := by
  unfold fromEntries
  have h1 := nodup_keysOf_foldl_setEntry l [] (by simp [keysOf_nil])
  exact ((jsEnum_perm _).map Prod.fst).nodup_iff.mpr h1

/-- The array-index block of a re-enumerated list. -/
theorem filter_idx_jsEnum (raw : List (String × JsonValue)) :
    (jsEnum raw).filter (fun e => isArrayIndex e.1) =
      (raw.filter (fun e => isArrayIndex e.1)).insertionSort idxLe := by
  unfold jsEnum
  rw [List.filter_append]
  have h1 : ((raw.filter (fun e => isArrayIndex e.1)).insertionSort idxLe).filter
      (fun e => isArrayIndex e.1) =
      (raw.filter (fun e => isArrayIndex e.1)).insertionSort idxLe := by
    rw [List.filter_eq_self]
    intro a ha
    exact (List.mem_filter.mp ((List.mem_insertionSort idxLe).mp ha)).2
  have h2 : (raw.filter (fun e => !isArrayIndex e.1)).filter
      (fun e => isArrayIndex e.1) = [] := by
    rw [List.filter_eq_nil_iff]
    intro a ha
    have h3 := (List.mem_filter.mp ha).2
    simp at h3 ⊢
    exact h3
  rw [h1, h2, List.append_nil]

/-- The string-key block of a re-enumerated list. -/
theorem filter_nonidx_jsEnum (raw : List (String × JsonValue)) :
    (jsEnum raw).filter (fun e => !isArrayIndex e.1) =
      raw.filter (fun e => !isArrayIndex e.1) := by
  unfold jsEnum
  rw [List.filter_append]
  have h1 : ((raw.filter (fun e => isArrayIndex e.1)).insertionSort idxLe).filter
      (fun e => !isArrayIndex e.1) = [] := by
    rw [List.filter_eq_nil_iff]
    intro a ha
    have h3 := (List.mem_filter.mp ((List.mem_insertionSort idxLe).mp ha)).2
    simp [h3]
  have h2 : (raw.filter (fun e => !isArrayIndex e.1)).filter
      (fun e => !isArrayIndex e.1) = raw.filter (fun e => !isArrayIndex e.1) := by
    rw [List.filter_eq_self]
    intro a ha
    exact (List.mem_filter.mp ha).2
  rw [h1, h2, List.nil_append]

/-- Re-enumerating twice is the same as once. -/
theorem jsEnum_idem (raw : List (String × JsonValue)) :
    jsEnum (jsEnum raw) = jsEnum raw := by
  conv_lhs => rw [jsEnum]
  rw [filter_idx_jsEnum, filter_nonidx_jsEnum,
    (List.sorted_insertionSort idxLe _).insertionSort_eq]
  rfl

/-- Re-enumeration is the identity when no key is an array index. -/
theorem jsEnum_eq_self_of_no_index {raw : List (String × JsonValue)}
    (h : ∀ e ∈ raw, isArrayIndex e.1 = false) : jsEnum raw = raw := by
  unfold jsEnum
  have h1 : raw.filter (fun e => isArrayIndex e.1) = [] := by
    rw [List.filter_eq_nil_iff]
    intro a ha
    simp [h a ha]
  have h2 : raw.filter (fun e => !isArrayIndex e.1) = raw := by
    rw [List.filter_eq_self]
    intro a ha
    simp [h a ha]
  rw [h1, h2]
  simp [List.insertionSort]

/-- On an entry list with pairwise-distinct non-index keys, `Object.fromEntries`
is the identity. -/
theorem fromEntries_eq_self {l : List (String × JsonValue)}
    (hnd : (keysOf l).Nodup) (hni : ∀ e ∈ l, isArrayIndex e.1 = false) :
    fromEntries l = l := by
  unfold fromEntries
  have hf := foldl_setEntry_eq_append l [] (by simpa [keysOf_nil] using hnd)
  rw [show (l.foldl (fun acc e => setEntry acc e.1 e.2) []) = l from by simpa using hf]
  exact jsEnum_eq_self_of_no_index hni

/-! ## Injectivity of the compact serializer

Needed because `normalizeForCompare` sorts array elements by their compact
serialization: antisymmetry of that ordering (up to value equality) is what
makes the sorted order of a multiset of elements unique. -/

theorem digitChar_digitB {d : Nat} (h : d < 10) : digitB (digitChar d) = true := by
  interval_cases d <;> decide

theorem digitVal_digitChar {d : Nat} (h : d < 10) : digitVal (digitChar d) = d := by
  interval_cases d <;> decide

theorem mem_natCharsAux_digitB :
    ∀ (fuel n : Nat) (c : Char), c ∈ natCharsAux fuel n → digitB c = true := by
  intro fuel
  induction fuel with
  | zero => intro n c h; simp [natCharsAux] at h
  | succ fuel ih =>
    intro n c h
    rw [natCharsAux] at h
    by_cases hn : n = 0
    · rw [if_pos hn] at h; simp at h
    · rw [if_neg hn] at h
      rcases List.mem_append.mp h with h2 | h2
      · exact ih _ _ h2
      · simp at h2
        rw [h2]
        exact digitChar_digitB (Nat.mod_lt _ (by omega))

theorem valOf_append_digit (ds : List Char) (c : Char) :
    valOf (ds ++ [c]) = valOf ds * 10 + digitVal c := by
  simp [valOf, List.foldl_append]

theorem valOf_natCharsAux : ∀ fuel n, n ≤ fuel → valOf (natCharsAux fuel n) = n := by
  intro fuel
  induction fuel with
  | zero =>
    intro n h
    interval_cases n
    simp [natCharsAux, valOf]
  | succ fuel ih =>
    intro n h
    rw [natCharsAux]
    by_cases hn : n = 0
    · rw [if_pos hn]; simp [valOf, hn]
    · rw [if_neg hn, valOf_append_digit, ih (n / 10) (by omega),
        digitVal_digitChar (Nat.mod_lt _ (by omega))]
      omega

theorem valOf_natChars (n : Nat) : valOf (natChars n) = n := by
  unfold natChars
  by_cases hn : n = 0
  · rw [if_pos hn]; subst hn; decide
  · rw [if_neg hn]; exact valOf_natCharsAux n n le_rfl

theorem natChars_injective {m n : Nat} (h : natChars m = natChars n) : m = n := by
  have h2 := congrArg valOf h
  rwa [valOf_natChars, valOf_natChars] at h2

theorem mem_natChars_digitB {n : Nat} {c : Char} (h : c ∈ natChars n) : digitB c = true := by
  unfold natChars at h
  by_cases hn : n = 0
  · rw [if_pos hn] at h
    simp at h
    rw [h]
    decide
  · rw [if_neg hn] at h
    exact mem_natCharsAux_digitB n n c h

theorem natChars_ne_nil (n : Nat) : natChars n ≠ [] := by
  intro h
  have h2 := valOf_natChars n
  rw [h] at h2
  simp [valOf] at h2
  subst h2
  simp [natChars] at h

theorem mem_intChars_numChar {i : Int} {c : Char} (h : c ∈ intChars i) :
    numChar c = true := by
  cases i with
  | ofNat n =>
    rw [intChars] at h
    simp [numChar, mem_natChars_digitB h]
  | negSucc m =>
    rw [intChars] at h
    rcases List.mem_cons.mp h with h2 | h2
    · rw [h2]; decide
    · simp [numChar, mem_natChars_digitB h2]

theorem intChars_ne_nil (i : Int) : intChars i ≠ [] := by
  cases i with
  | ofNat n => exact natChars_ne_nil n
  | negSucc m => simp [intChars]

theorem intChars_injective {i j : Int} (h : intChars i = intChars j) : i = j := by
  cases i with
  | ofNat n =>
    cases j with
    | ofNat m =>
      rw [intChars, intChars] at h
      rw [natChars_injective h]
    | negSucc m =>
      rw [intChars, intChars] at h
      have hm : '-' ∈ natChars n := h ▸ List.mem_cons_self _ _
      have := mem_natChars_digitB hm
      exact absurd this (by decide)
  | negSucc n =>
    cases j with
    | ofNat m =>
      rw [intChars, intChars] at h
      have hm : '-' ∈ natChars m := h ▸ List.mem_cons_self _ _
      have := mem_natChars_digitB hm
      exact absurd this (by decide)
    | negSucc m =>
      rw [intChars, intChars] at h
      injection h with h1 h2
      have h3 : n = m := by
        have := natChars_injective h2
        omega
      rw [h3]

/-- Cancellation for token runs: if every character of `xs` and `ys` satisfies
`p` and neither `u` nor `v` starts with a `p`-character, then
`xs ++ u = ys ++ v` forces `xs = ys` and `u = v`. -/
theorem token_cancel (p : Char → Bool) :
    ∀ (xs : List Char), (∀ c ∈ xs, p c = true) →
      ∀ (ys : List Char), (∀ c ∈ ys, p c = true) →
      ∀ (u v : List Char), (∀ c cs, u = c :: cs → p c = false) →
      (∀ c cs, v = c :: cs → p c = false) →
      xs ++ u = ys ++ v → xs = ys ∧ u = v := by
  intro xs
  induction xs with
  | nil =>
    intro _ ys hys u v hu _ h
    cases ys with
    | nil => exact ⟨rfl, h⟩
    | cons y ys2 =>
      simp at h
      have h1 := hu y (ys2 ++ v) h
      have h2 := hys y (List.mem_cons_self _ _)
      rw [h1] at h2
      simp at h2
  | cons x xs2 ih =>
    intro hxs ys hys u v hu hv h
    cases ys with
    | nil =>
      simp at h
      have h1 := hv x (xs2 ++ u) h.symm
      have h2 := hxs x (List.mem_cons_self _ _)
      rw [h1] at h2
      simp at h2
    | cons y ys2 =>
      simp at h
      obtain ⟨h1, h2⟩ := h
      obtain ⟨h3, h4⟩ := ih (fun c hc => hxs c (List.mem_cons_of_mem _ hc)) ys2
        (fun c hc => hys c (List.mem_cons_of_mem _ hc)) u v hu hv h2
      exact ⟨by rw [h1, h3], h4⟩

theorem bnd_head_not_numChar {u : List Char} (h : Bnd u) :
    ∀ c cs, u = c :: cs → numChar c = false := by
  intro c cs he
  subst he
  have h2 : c = ',' ∨ c = ']' ∨ c = '}' := h
  rcases h2 with h2 | h2 | h2 <;> (subst h2; decide)

theorem num_cancel {i j : Int} {u v : List Char} (hu : Bnd u) (hv : Bnd v)
    (h : intChars i ++ u = intChars j ++ v) : i = j ∧ u = v := by
  obtain ⟨h1, h2⟩ := token_cancel numChar (intChars i) (fun _ hc => mem_intChars_numChar hc)
    (intChars j) (fun _ hc => mem_intChars_numChar hc) u v
    (bnd_head_not_numChar hu) (bnd_head_not_numChar hv) h
  exact ⟨intChars_injective h1, h2⟩

theorem char_toNat_injective {c d : Char} (h : c.toNat = d.toNat) : c = d :=
  Char.ext (UInt32.toNat.inj h)

theorem hexChar_toNat {d : Nat} (h : d < 16) :
    (hexChar d).toNat = if d < 10 then 48 + d else 87 + d := by
  interval_cases d <;> decide

theorem hexChar_inj16 : ∀ a < 16, ∀ b < 16, hexChar a = hexChar b → a = b := by
  intro a ha b hb h
  have h2 := congrArg Char.toNat h
  rw [hexChar_toNat (by omega), hexChar_toNat (by omega)] at h2
  split_ifs at h2 <;> omega

theorem hexChar_inj32 : ∀ a < 32, ∀ b < 32,
    hexChar (a / 16) = hexChar (b / 16) → hexChar (a % 16) = hexChar (b % 16) → a = b := by
  intro a ha b hb h1 h2
  have d1 := hexChar_inj16 (a / 16) (by omega) (b / 16) (by omega) h1
  have d2 := hexChar_inj16 (a % 16) (by omega) (b % 16) (by omega) h2
  omega

theorem escChar_of_some {c e : Char} (h : escCode c = some e) : escChar c = ['\\', e] := by
  unfold escChar
  rw [h]

theorem escChar_of_none_small {c : Char} (h : escCode c = none) (h2 : c.toNat < 32) :
    escChar c = ['\\', 'u', '0', '0', hexChar (c.toNat / 16), hexChar (c.toNat % 16)] := by
  unfold escChar
  rw [h, if_pos h2]

theorem escChar_of_none_big {c : Char} (h : escCode c = none) (h2 : ¬c.toNat < 32) :
    escChar c = [c] := by
  unfold escChar
  rw [h, if_neg h2]

set_option maxHeartbeats 1000000 in
theorem escCode_inj {c d e : Char} (h1 : escCode c = some e) (h2 : escCode d = some e) :
    c = d := by
  unfold escCode at h1 h2
  split_ifs at h1 h2 <;>
    first
    | (subst_vars; rfl)
    | (injection h1 with e1; injection h2 with e2; rw [← e1] at e2; exact absurd e2 (by decide))

theorem escCode_ne_u {c e : Char} (h : escCode c = some e) : e ≠ 'u' := by
  unfold escCode at h
  split_ifs at h <;> (injection h with h2; subst h2; decide)

theorem escCode_none_ne_quote {c : Char} (h : escCode c = none) : c ≠ '"' := by
  intro hc
  subst hc
  simp [escCode] at h

theorem escCode_none_ne_bslash {c : Char} (h : escCode c = none) : c ≠ '\\' := by
  intro hc
  subst hc
  simp [escCode] at h

theorem escChar_head_ne_quote (c : Char) : ∃ d ds, escChar c = d :: ds ∧ d ≠ '"' := by
  cases hc : escCode c with
  | some e => exact ⟨'\\', [e], escChar_of_some hc, by decide⟩
  | none =>
    by_cases h2 : c.toNat < 32
    · exact ⟨'\\', _, escChar_of_none_small hc h2, by decide⟩
    · exact ⟨c, [], escChar_of_none_big hc h2, escCode_none_ne_quote hc⟩

theorem escChar_cancel {c d : Char} {x y : List Char}
    (h : escChar c ++ x = escChar d ++ y) : c = d ∧ x = y := by
  cases hc : escCode c with
  | some e1 =>
    cases hd : escCode d with
    | some e2 =>
      rw [escChar_of_some hc, escChar_of_some hd] at h
      simp at h
      obtain ⟨he, hx⟩ := h
      exact ⟨escCode_inj hc (he ▸ hd), hx⟩
    | none =>
      by_cases h2 : d.toNat < 32
      · rw [escChar_of_some hc, escChar_of_none_small hd h2] at h
        simp at h
        exact absurd h.1 (escCode_ne_u hc)
      · rw [escChar_of_some hc, escChar_of_none_big hd h2] at h
        simp at h
        exact absurd h.1.symm (escCode_none_ne_bslash hd)
  | none =>
    by_cases h2 : c.toNat < 32
    · cases hd : escCode d with
      | some e2 =>
        rw [escChar_of_none_small hc h2, escChar_of_some hd] at h
        simp at h
        exact absurd h.1.symm (escCode_ne_u hd)
      | none =>
        by_cases h3 : d.toNat < 32
        · rw [escChar_of_none_small hc h2, escChar_of_none_small hd h3] at h
          simp at h
          obtain ⟨hh1, hh2, hx⟩ := h
          have h4 := hexChar_inj32 c.toNat h2 d.toNat h3 hh1 hh2
          exact ⟨char_toNat_injective h4, hx⟩
        · rw [escChar_of_none_small hc h2, escChar_of_none_big hd h3] at h
          simp at h
          exact absurd h.1.symm (escCode_none_ne_bslash hd)
    · cases hd : escCode d with
      | some e2 =>
        rw [escChar_of_none_big hc h2, escChar_of_some hd] at h
        simp at h
        exact absurd h.1 (escCode_none_ne_bslash hc)
      | none =>
        by_cases h3 : d.toNat < 32
        · rw [escChar_of_none_big hc h2, escChar_of_none_small hd h3] at h
          simp at h
          exact absurd h.1 (escCode_none_ne_bslash hc)
        · rw [escChar_of_none_big hc h2, escChar_of_none_big hd h3] at h
          simp at h
          exact h

theorem escape_cancel : ∀ (s t u v : List Char),
    escapeChars s ++ '"' :: u = escapeChars t ++ '"' :: v → s = t ∧ u = v := by
  intro s
  induction s with
  | nil =>
    intro t u v h
    cases t with
    | nil =>
      simp [escapeChars] at h
      exact ⟨rfl, h⟩
    | cons d t2 =>
      rw [escapeChars, escapeChars, List.nil_append, List.append_assoc] at h
      obtain ⟨e, es, hesc, hne⟩ := escChar_head_ne_quote d
      rw [hesc] at h
      simp at h
      exact absurd h.1.symm hne
  | cons c s2 ih =>
    intro t u v h
    cases t with
    | nil =>
      rw [escapeChars, escapeChars, List.nil_append, List.append_assoc] at h
      obtain ⟨e, es, hesc, hne⟩ := escChar_head_ne_quote c
      rw [hesc] at h
      simp at h
      exact absurd h.1 hne
    | cons d t2 =>
      rw [escapeChars, escapeChars, List.append_assoc, List.append_assoc] at h
      obtain ⟨hcd, h2⟩ := escChar_cancel h
      obtain ⟨hs, hu⟩ := ih t2 u v h2
      exact ⟨by rw [hcd, hs], hu⟩

theorem quote_cancel {s t u v : List Char}
    (h : quoteChars s ++ u = quoteChars t ++ v) : s = t ∧ u = v := by
  rw [quoteChars, quoteChars] at h
  simp only [List.cons_append, List.append_assoc, List.singleton_append] at h
  injection h with h1 h2
  exact escape_cancel s t u v h2

theorem startTag_of_numChar {c : Char} (h : numChar c = true) : startTag c = 3 := by
  have h1 : ¬c = 'n' := by rintro rfl; exact absurd h (by decide)
  have h2 : ¬c = 't' := by rintro rfl; exact absurd h (by decide)
  have h3 : ¬c = 'f' := by rintro rfl; exact absurd h (by decide)
  unfold startTag
  rw [if_neg h1, if_neg h2, if_neg h3, if_pos h]

theorem ctorTag_le (v : JsonValue) : ctorTag v ≤ 6 := by
  cases v with
  | bool b => cases b <;> decide
  | _ => first | decide | (simp [ctorTag])

/-- Every serialization is nonempty and its first character classifies the
value's constructor. -/
theorem serChars_head : ∀ a, ∃ c cs, serChars a = c :: cs ∧ startTag c = ctorTag a := by
  intro a
  cases a with
  | null => exact ⟨'n', ['u', 'l', 'l'], by rw [serChars]; rfl, by decide⟩
  | bool b =>
    cases b with
    | true => exact ⟨'t', ['r', 'u', 'e'], by rw [serChars]; rfl, by decide⟩
    | false => exact ⟨'f', ['a', 'l', 's', 'e'], by rw [serChars]; rfl, by decide⟩
  | num i =>
    obtain ⟨c, cs, hi⟩ : ∃ c cs, intChars i = c :: cs := by
      cases hi : intChars i with
      | nil => exact absurd hi (intChars_ne_nil i)
      | cons c cs => exact ⟨c, cs, rfl⟩
    have hn : numChar c = true := mem_intChars_numChar (hi ▸ List.mem_cons_self c cs)
    exact ⟨c, cs, by rw [serChars, hi], by rw [startTag_of_numChar hn]; rfl⟩
  | str s =>
    exact ⟨'"', _, by rw [serChars, quoteChars],
      by rw [show ctorTag (JsonValue.str s) = 4 from rfl]; decide⟩
  | arr xs =>
    exact ⟨'[', _, by rw [serChars],
      by rw [show ctorTag (JsonValue.arr xs) = 5 from rfl]; decide⟩
  | obj es =>
    exact ⟨'{', _, by rw [serChars],
      by rw [show ctorTag (JsonValue.obj es) = 6 from rfl]; decide⟩

theorem serElems_cons (x : JsonValue) (xs : List JsonValue) :
    serElems (x :: xs) =
      serChars x ++ (if xs.isEmpty then [] else ',' :: serElems xs) := by
  cases xs <;> simp [serElems]

theorem serEntries_cons (e : String × JsonValue) (es : List (String × JsonValue)) :
    serEntries (e :: es) =
      (quoteChars e.1.data ++ ':' :: serChars e.2) ++
        (if es.isEmpty then [] else ',' :: serEntries es) := by
  cases es <;> simp [serEntries]

theorem bnd_sep {b : Bool} {Z u2 : List Char} {cl : Char} (hcl : cl = ']' ∨ cl = '}') :
    Bnd ((if b then [] else ',' :: Z) ++ (cl :: u2)) := by
  cases b with
  | false => exact Or.inl rfl
  | true =>
    rcases hcl with h | h <;> subst h
    · exact Or.inr (Or.inl rfl)
    · exact Or.inr (Or.inr rfl)

/-- Cancellation for the compact serializer: two serialized values followed by
boundary contexts agree only if the values and the contexts agree. -/
theorem ser_cancel_aux : ∀ N : Nat, ∀ a : JsonValue, sizeOf a ≤ N →
    ∀ b u v, Bnd u → Bnd v → serChars a ++ u = serChars b ++ v → a = b ∧ u = v := by
  intro N
  induction N using Nat.strong_induction_on with
  | _ N IH =>
  intro a ha b u v hu hv h
  have htag : ctorTag a = ctorTag b := by
    obtain ⟨c, cs, hca, hta⟩ := serChars_head a
    obtain ⟨d, ds, hcb, htb⟩ := serChars_head b
    rw [hca, hcb] at h
    simp only [List.cons_append, List.cons.injEq] at h
    rw [← hta, ← htb, h.1]
  cases a with
  | null =>
    cases b with
    | null =>
      refine ⟨rfl, ?_⟩
      simp only [serChars, nullChars] at h
      simpa using h
    | bool b2 => exact absurd htag (by cases b2 <;> simp [ctorTag])
    | num j => exact absurd htag (by simp [ctorTag])
    | str t => exact absurd htag (by simp [ctorTag])
    | arr ys => exact absurd htag (by simp [ctorTag])
    | obj fs => exact absurd htag (by simp [ctorTag])
  | bool b1 =>
    cases b with
    | null => exact absurd htag (by cases b1 <;> simp [ctorTag])
    | bool b2 =>
      cases b1 <;> cases b2
      · exact ⟨rfl, by simpa [serChars, falseChars] using h⟩
      · exact absurd htag (by simp [ctorTag])
      · exact absurd htag (by simp [ctorTag])
      · exact ⟨rfl, by simpa [serChars, trueChars] using h⟩
    | num j => exact absurd htag (by cases b1 <;> simp [ctorTag])
    | str t => exact absurd htag (by cases b1 <;> simp [ctorTag])
    | arr ys => exact absurd htag (by cases b1 <;> simp [ctorTag])
    | obj fs => exact absurd htag (by cases b1 <;> simp [ctorTag])
  | num i =>
    cases b with
    | num j =>
      simp only [serChars] at h
      obtain ⟨hij, huv⟩ := num_cancel hu hv h
      exact ⟨by rw [hij], huv⟩
    | null => exact absurd htag (by simp [ctorTag])
    | bool b2 => exact absurd htag (by cases b2 <;> simp [ctorTag])
    | str t => exact absurd htag (by simp [ctorTag])
    | arr ys => exact absurd htag (by simp [ctorTag])
    | obj fs => exact absurd htag (by simp [ctorTag])
  | str s =>
    cases b with
    | str t =>
      simp only [serChars] at h
      obtain ⟨hd, huv⟩ := quote_cancel h
      exact ⟨by rw [String.data_injective hd], huv⟩
    | null => exact absurd htag (by simp [ctorTag])
    | bool b2 => exact absurd htag (by cases b2 <;> simp [ctorTag])
    | num j => exact absurd htag (by simp [ctorTag])
    | arr ys => exact absurd htag (by simp [ctorTag])
    | obj fs => exact absurd htag (by simp [ctorTag])
  | arr xs =>
    cases b with
    | arr ys =>
      have hsz : ∀ x ∈ xs, sizeOf x < N := by
        intro x hx
        have := List.sizeOf_lt_of_mem hx
        simp only [JsonValue.arr.sizeOf_spec] at ha
        omega
      have elemsCancel : ∀ xs2 : List JsonValue, (∀ x ∈ xs2, sizeOf x < N) →
          ∀ ys2 u2 v2, serElems xs2 ++ ']' :: u2 = serElems ys2 ++ ']' :: v2 →
            xs2 = ys2 ∧ u2 = v2 := by
        intro xs2
        induction xs2 with
        | nil =>
          intro _ ys2 u2 v2 h2
          cases ys2 with
          | nil =>
            simp only [serElems] at h2
            simpa using h2
          | cons y ys3 =>
            exfalso
            obtain ⟨cy, csy, hcy, hty⟩ := serChars_head y
            simp only [serElems, List.nil_append] at h2
            rw [serElems_cons, hcy, List.append_assoc, List.cons_append] at h2
            simp only [List.cons.injEq] at h2
            rw [← h2.1] at hty
            have h7 : startTag ']' = 7 := by decide
            have h6 := ctorTag_le y
            omega
        | cons x xs3 ihx =>
          intro hsz2 ys2 u2 v2 h2
          cases ys2 with
          | nil =>
            exfalso
            obtain ⟨cx, csx, hcx, htx⟩ := serChars_head x
            simp only [serElems, List.nil_append] at h2
            rw [serElems_cons, hcx, List.append_assoc, List.cons_append] at h2
            simp only [List.cons.injEq] at h2
            rw [h2.1] at htx
            have h7 : startTag ']' = 7 := by decide
            have h6 := ctorTag_le x
            omega
          | cons y ys3 =>
            rw [serElems_cons, serElems_cons, List.append_assoc, List.append_assoc] at h2
            obtain ⟨hxy, h3⟩ := IH (sizeOf x) (hsz2 x (List.mem_cons_self _ _)) x le_rfl y
              _ _ (bnd_sep (Or.inl rfl)) (bnd_sep (Or.inl rfl)) h2
            cases xs3 with
            | nil =>
              cases ys3 with
              | nil =>
                simp only [List.isEmpty_nil, if_pos, List.nil_append,
                  List.cons.injEq, if_true] at h3
                exact ⟨by rw [hxy], by simpa using h3⟩
              | cons y4 ys4 =>
                exfalso
                simp at h3
            | cons x4 xs4 =>
              cases ys3 with
              | nil =>
                exfalso
                simp at h3
              | cons y4 ys4 =>
                simp only [List.isEmpty_cons, if_neg, List.cons_append,
                  List.cons.injEq, if_false, Bool.false_eq_true, not_false_eq_true] at h3
                obtain ⟨hrest, huv2⟩ := ihx (fun z hz => hsz2 z (List.mem_cons_of_mem _ hz))
                  (y4 :: ys4) u2 v2 (by simpa using h3)
                exact ⟨by rw [hxy, hrest], huv2⟩
      simp only [serChars] at h
      rw [List.cons_append, List.cons_append, List.append_assoc, List.append_assoc] at h
      simp only [List.cons.injEq, List.singleton_append] at h
      obtain ⟨hxy, huv⟩ := elemsCancel xs hsz ys u v h.2
      exact ⟨by rw [hxy], huv⟩
    | null => exact absurd htag (by simp [ctorTag])
    | bool b2 => exact absurd htag (by cases b2 <;> simp [ctorTag])
    | num j => exact absurd htag (by simp [ctorTag])
    | str t => exact absurd htag (by simp [ctorTag])
    | obj fs => exact absurd htag (by simp [ctorTag])
  | obj es =>
    cases b with
    | obj fs =>
      have hsz : ∀ e ∈ es, sizeOf e.2 < N := by
        intro e he
        have := sizeOf_snd_lt_of_mem_entries he
        simp only [JsonValue.obj.sizeOf_spec] at ha
        omega
      have entriesCancel : ∀ es2 : List (String × JsonValue), (∀ e ∈ es2, sizeOf e.2 < N) →
          ∀ fs2 u2 v2, serEntries es2 ++ '}' :: u2 = serEntries fs2 ++ '}' :: v2 →
            es2 = fs2 ∧ u2 = v2 := by
        intro es2
        induction es2 with
        | nil =>
          intro _ fs2 u2 v2 h2
          cases fs2 with
          | nil =>
            simp only [serEntries] at h2
            simpa using h2
          | cons f fs3 =>
            exfalso
            simp only [serEntries, List.nil_append] at h2
            rw [serEntries_cons, quoteChars, List.append_assoc, List.cons_append,
              List.cons_append] at h2
            simp at h2
        | cons e es3 ihe =>
          intro hsz2 fs2 u2 v2 h2
          cases fs2 with
          | nil =>
            exfalso
            simp only [serEntries, List.nil_append] at h2
            rw [serEntries_cons, quoteChars, List.append_assoc, List.cons_append,
              List.cons_append] at h2
            simp at h2
          | cons f fs3 =>
            rw [serEntries_cons, serEntries_cons, List.append_assoc, List.append_assoc,
              List.append_assoc, List.append_assoc, List.cons_append, List.cons_append] at h2
            obtain ⟨hkey, h3⟩ := quote_cancel h2
            simp only [List.cons.injEq] at h3
            obtain ⟨hval, h4⟩ := IH (sizeOf e.2) (hsz2 e (List.mem_cons_self _ _)) e.2 le_rfl
              f.2 _ _ (bnd_sep (Or.inr rfl)) (bnd_sep (Or.inr rfl)) h3.2
            have hef : e = f := by
              obtain ⟨ek, ev⟩ := e
              obtain ⟨fk, fv⟩ := f
              simp only at hkey hval
              rw [String.data_injective hkey, hval]
            cases es3 with
            | nil =>
              cases fs3 with
              | nil =>
                simp only [List.isEmpty_nil, if_true, List.nil_append,
                  List.cons.injEq] at h4
                exact ⟨by rw [hef], by simpa using h4⟩
              | cons f4 fs4 =>
                exfalso
                simp at h4
            | cons e4 es4 =>
              cases fs3 with
              | nil =>
                exfalso
                simp at h4
              | cons f4 fs4 =>
                simp only [List.isEmpty_cons, List.cons_append, List.cons.injEq,
                  Bool.false_eq_true, not_false_eq_true, if_false] at h4
                obtain ⟨hrest, huv2⟩ := ihe (fun z hz => hsz2 z (List.mem_cons_of_mem _ hz))
                  (f4 :: fs4) u2 v2 (by simpa using h4)
                exact ⟨by rw [hef, hrest], huv2⟩
      simp only [serChars] at h
      rw [List.cons_append, List.cons_append, List.append_assoc, List.append_assoc] at h
      simp only [List.cons.injEq, List.singleton_append] at h
      obtain ⟨hef, huv⟩ := entriesCancel es hsz fs u v h.2
      exact ⟨by rw [hef], huv⟩
    | null => exact absurd htag (by simp [ctorTag])
    | bool b2 => exact absurd htag (by cases b2 <;> simp [ctorTag])
    | num j => exact absurd htag (by simp [ctorTag])
    | str t => exact absurd htag (by simp [ctorTag])
    | arr ys => exact absurd htag (by simp [ctorTag])

theorem serChars_injective : Function.Injective serChars := by
  intro a b h
  have h2 : serChars a ++ [] = serChars b ++ [] := by simp [h]
  exact (ser_cancel_aux (sizeOf a) a le_rfl b [] [] trivial trivial h2).1

theorem stringify_injective : Function.Injective stringify := by
  intro a b h
  have h2 : serChars a = serChars b := by
    have := congrArg String.data h
    simpa [stringify] using this
  exact serChars_injective h2

instance : IsAntisymm JsonValue serLe :=
  ⟨fun a b h1 h2 => stringify_injective (le_antisymm h1 h2)⟩

/-! ## Array-index keys: canonicity of the decimal form, and idempotence of
`Object.fromEntries` composed with re-enumeration -/

theorem digitB_le {c : Char} (h : digitB c = true) : 48 ≤ c.toNat ∧ c.toNat ≤ 57 := by
  unfold digitB at h
  simp at h
  exact h

theorem digitChar_digitVal {c : Char} (h : digitB c = true) :
    digitChar (digitVal c) = c := by
  obtain ⟨h1, h2⟩ := digitB_le h
  unfold digitChar digitVal
  rw [show 48 + (c.toNat - 48) = c.toNat by omega, Char.ofNat_toNat]

theorem digitVal_lt_ten {c : Char} (h : digitB c = true) : digitVal c < 10 := by
  obtain ⟨h1, h2⟩ := digitB_le h
  unfold digitVal
  omega

theorem valOf_cons (c : Char) (cs : List Char) :
    valOf (c :: cs) = cs.foldl (fun a d => a * 10 + digitVal d) (digitVal c) := by
  simp [valOf]

theorem le_foldl_digits : ∀ (cs : List Char) (a : Nat),
    a ≤ cs.foldl (fun a d => a * 10 + digitVal d) a := by
  intro cs
  induction cs with
  | nil => intro a; exact le_rfl
  | cons c cs ih =>
    intro a
    rw [List.foldl_cons]
    refine le_trans ?_ (ih (a * 10 + digitVal c))
    omega

theorem valOf_pos {c : Char} (cs : List Char) (hd : digitB c = true) (hc : c ≠ '0') :
    1 ≤ valOf (c :: cs) := by
  obtain ⟨h1, h2⟩ := digitB_le hd
  have h48 : c.toNat ≠ 48 := by
    intro h
    exact hc (char_toNat_injective (show c.toNat = Char.toNat '0' from h))
  have hv : 1 ≤ digitVal c := by
    unfold digitVal
    omega
  rw [valOf_cons]
  exact le_trans hv (le_foldl_digits cs (digitVal c))

theorem natCharsAux_zero : ∀ fuel, natCharsAux fuel 0 = [] := by
  intro fuel
  cases fuel with
  | zero => rfl
  | succ f => rw [natCharsAux, if_pos rfl]

/-- A nonempty all-digit list with no leading zero is recovered from its
numeric value: canonical decimal strings are unique. -/
theorem natCharsAux_canonical :
    ∀ ds : List Char, ∀ fuel, (∀ c ∈ ds, digitB c = true) →
      (∀ d t, ds = d :: t → d ≠ '0') → 1 ≤ valOf ds → valOf ds ≤ fuel →
      natCharsAux fuel (valOf ds) = ds := by
  intro ds
  induction ds using List.reverseRecOn with
  | nil =>
    intro fuel _ _ h1 _
    simp [valOf] at h1
  | append_singleton ds c ih =>
    intro fuel hdig hhead h1 hfuel
    rw [valOf_append_digit] at h1 hfuel ⊢
    have hc : digitB c = true := hdig c (List.mem_append_right ds (List.mem_singleton_self c))
    have hc10 := digitVal_lt_ten hc
    obtain ⟨f, rfl⟩ : ∃ f, fuel = f + 1 := ⟨fuel - 1, by omega⟩
    rw [natCharsAux, if_neg (by omega)]
    have hdiv : (valOf ds * 10 + digitVal c) / 10 = valOf ds := by omega
    have hmod : (valOf ds * 10 + digitVal c) % 10 = digitVal c := by omega
    rw [hdiv, hmod, digitChar_digitVal hc]
    cases ds with
    | nil =>
      rw [show valOf ([] : List Char) = 0 from rfl, natCharsAux_zero]
    | cons d t =>
      have hd : digitB d = true := hdig d (List.mem_append_left _ (List.mem_cons_self d t))
      have hd0 : d ≠ '0' := hhead d (t ++ [c]) (List.cons_append d t [c])
      have hpos : 1 ≤ valOf (d :: t) := valOf_pos t hd hd0
      rw [ih f (fun x hx => hdig x (List.mem_append_left _ hx))
        (fun e u he => by injection he with h1 h2; exact h1 ▸ hd0)
        hpos (by omega)]

theorem natChars_canonical {ds : List Char} (hdig : ∀ c ∈ ds, digitB c = true)
    (hlead : ∀ d t, ds = d :: t → d = '0' → t = []) (hne : ds ≠ []) :
    natChars (valOf ds) = ds := by
  cases ds with
  | nil => exact absurd rfl hne
  | cons c cs =>
    by_cases hc0 : c = '0'
    · have ht : cs = [] := hlead c cs rfl hc0
      subst ht
      subst hc0
      rw [show valOf ['0'] = 0 from rfl]
      rfl
    · have hpos : 1 ≤ valOf (c :: cs) :=
        valOf_pos cs (hdig c (List.mem_cons_self c cs)) hc0
      unfold natChars
      rw [if_neg (by omega)]
      exact natCharsAux_canonical (c :: cs) (valOf (c :: cs)) hdig
        (fun d t h => by rw [List.cons.injEq] at h; exact h.1 ▸ hc0) hpos le_rfl

/-- Unpacking the `isArrayIndex` test. -/
theorem isArrayIndex_spec {s : String} (h : isArrayIndex s = true) :
    s.data ≠ [] ∧ (∀ c ∈ s.data, digitB c = true) ∧
      (∀ d t, s.data = d :: t → d = '0' → t = []) := by
  unfold isArrayIndex at h
  cases hs : s.data with
  | nil => rw [hs] at h; simp at h
  | cons c cs =>
    rw [hs] at h
    simp only [Bool.and_eq_true, Bool.or_eq_true, Bool.not_eq_true', beq_eq_false_iff_ne,
      List.all_eq_true, decide_eq_true_eq, List.isEmpty_iff] at h
    refine ⟨by simp, h.1.1, ?_⟩
    intro d t hdt h0
    rw [List.cons.injEq] at hdt
    rcases h.1.2 with h2 | h2
    · exact absurd (hdt.1 ▸ h0) h2
    · exact hdt.2 ▸ h2

/-- Two array-index keys with the same numeric value are the same string:
the value determines its canonical decimal form. -/
theorem isArrayIndex_valOf_inj {a b : String} (ha : isArrayIndex a = true)
    (hb : isArrayIndex b = true) (h : valOf a.data = valOf b.data) : a = b := by
  obtain ⟨hne_a, hdig_a, hlead_a⟩ := isArrayIndex_spec ha
  obtain ⟨hne_b, hdig_b, hlead_b⟩ := isArrayIndex_spec hb
  apply String.data_injective
  rw [← natChars_canonical hdig_a hlead_a hne_a, h,
    natChars_canonical hdig_b hlead_b hne_b]

/-- A permutation between two lists sorted by a key `κ`, with pairwise-distinct
keys, is the identity. -/
theorem perm_sorted_key_nodup_eq {α β : Type} [LinearOrder β] (κ : α → β) :
    ∀ {l₁ l₂ : List α}, l₁.Perm l₂ →
      l₁.Sorted (fun a b => κ a ≤ κ b) → l₂.Sorted (fun a b => κ a ≤ κ b) →
      (l₁.map κ).Nodup → l₁ = l₂ := by
  intro l₁
  induction l₁ with
  | nil =>
    intro l₂ hp _ _ _
    exact (hp.symm.eq_nil).symm
  | cons a t ih =>
    intro l₂ hp hs₁ hs₂ hnd
    cases l₂ with
    | nil => exact absurd hp.eq_nil (by simp)
    | cons b t₂ =>
      have hab : a = b := by
        rcases List.mem_cons.mp (hp.mem_iff.mp (List.mem_cons_self a t)) with h | h
        · exact h
        · rcases List.mem_cons.mp (hp.symm.mem_iff.mp (List.mem_cons_self b t₂)) with h2 | h2
          · exact h2.symm
          · exfalso
            have hle1 : κ a ≤ κ b := List.rel_of_sorted_cons hs₁ b h2
            have hle2 : κ b ≤ κ a := List.rel_of_sorted_cons hs₂ a h
            rw [List.map_cons, List.nodup_cons] at hnd
            exact hnd.1 (le_antisymm hle2 hle1 ▸ List.mem_map_of_mem κ h2)
      subst hab
      rw [List.map_cons, List.nodup_cons] at hnd
      rw [ih hp.cons_inv hs₁.of_cons hs₂.of_cons hnd.2]

/-- `Object.fromEntries` is idempotent (modelled: the second pass folds over
pairwise-distinct keys, so only re-enumeration remains, and re-enumeration is
idempotent). -/
theorem fromEntries_fromEntries (l : List (String × JsonValue)) :
    fromEntries (fromEntries l) = fromEntries l := by
  show jsEnum ((fromEntries l).foldl (fun acc e => setEntry acc e.1 e.2) []) = fromEntries l
  rw [foldl_setEntry_eq_append (fromEntries l) []
    (by simpa [keysOf_nil] using nodup_keysOf_fromEntries l), List.nil_append]
  unfold fromEntries
  exact jsEnum_idem _

/-- Keys of an entry in the array-index block of a list are array indices with
pairwise-distinct numeric values. -/
theorem nodup_valOf_filter_idx {F : List (String × JsonValue)}
    (hnd : (keysOf F).Nodup) :
    ((F.filter (fun e => isArrayIndex e.1)).map (fun e => valOf e.1.data)).Nodup := by
  have hks : ((F.filter (fun e => isArrayIndex e.1)).map Prod.fst).Nodup :=
    ((List.filter_sublist F).map Prod.fst).nodup hnd
  have hmm : (F.filter (fun e => isArrayIndex e.1)).map (fun e => valOf e.1.data) =
      ((F.filter (fun e => isArrayIndex e.1)).map Prod.fst).map (fun k => valOf k.data) := by
    rw [List.map_map]
    rfl
  rw [hmm]
  refine hks.map_on ?_
  intro x hx y hy hxy
  obtain ⟨ex, hex, rfl⟩ := List.mem_map.mp hx
  obtain ⟨ey, hey, rfl⟩ := List.mem_map.mp hy
  exact isArrayIndex_valOf_inj ((List.mem_filter.mp hex).2) ((List.mem_filter.mp hey).2) hxy

/-- Sorting an already re-enumerated object's entries by key and rebuilding the
object re-enumerates back to the same entry list. -/
theorem jsEnum_insertionSort_jsEnum {F : List (String × JsonValue)}
    (hs : F.Sorted keyLe) (hnd : (keysOf F).Nodup) :
    jsEnum (List.insertionSort keyLe (jsEnum F)) = jsEnum F := by
  have hSF : (List.insertionSort keyLe (jsEnum F)).Perm F :=
    (List.perm_insertionSort keyLe _).trans (jsEnum_perm F)
  have hndS : (keysOf (List.insertionSort keyLe (jsEnum F))).Nodup :=
    (hSF.map Prod.fst).nodup_iff.mpr hnd
  have hidx : (((List.insertionSort keyLe (jsEnum F)).filter
        (fun e => isArrayIndex e.1)).insertionSort idxLe) =
      ((F.filter (fun e => isArrayIndex e.1)).insertionSort idxLe) := by
    apply perm_sorted_key_nodup_eq (fun e => valOf e.1.data)
    · exact (List.perm_insertionSort idxLe _).trans
        ((hSF.filter _).trans (List.perm_insertionSort idxLe _).symm)
    · exact List.sorted_insertionSort idxLe _
    · exact List.sorted_insertionSort idxLe _
    · refine (((List.perm_insertionSort idxLe _).trans (hSF.filter _)).map
        (fun e => valOf e.1.data)).nodup_iff.mpr ?_
      exact nodup_valOf_filter_idx hnd
  have hnon : (List.insertionSort keyLe (jsEnum F)).filter (fun e => !isArrayIndex e.1) =
      F.filter (fun e => !isArrayIndex e.1) := by
    apply perm_sorted_key_nodup_eq (fun e => e.1)
    · exact hSF.filter _
    · exact List.Pairwise.sublist (List.filter_sublist _)
        (List.sorted_insertionSort keyLe (jsEnum F))
    · exact List.Pairwise.sublist (List.filter_sublist _) hs
    · exact ((List.filter_sublist _).map Prod.fst).nodup hndS
  show ((List.insertionSort keyLe (jsEnum F)).filter
      (fun e => isArrayIndex e.1)).insertionSort idxLe ++
      (List.insertionSort keyLe (jsEnum F)).filter (fun e => !isArrayIndex e.1) = jsEnum F
  rw [hidx, hnon]
  rfl

/-- Sorting the entries of `Object.fromEntries` of an already key-sorted list
and rebuilding the object changes nothing. -/
theorem fromEntries_insertionSort_fromEntries {L : List (String × JsonValue)}
    (hL : L.Sorted keyLe) :
    fromEntries (List.insertionSort keyLe (fromEntries L)) = fromEntries L := by
  have hndS : (keysOf (List.insertionSort keyLe (fromEntries L))).Nodup :=
    ((List.perm_insertionSort keyLe (fromEntries L)).map Prod.fst).nodup_iff.mpr
      (nodup_keysOf_fromEntries L)
  show jsEnum ((List.insertionSort keyLe (fromEntries L)).foldl
      (fun acc e => setEntry acc e.1 e.2) []) = fromEntries L
  rw [foldl_setEntry_eq_append _ [] (by simpa [keysOf_nil] using hndS), List.nil_append]
  have hsF : (L.foldl (fun acc e => setEntry acc e.1 e.2) []).Sorted keyLe :=
    fold_keyLe_sorted hL
  have hndF : (keysOf (L.foldl (fun acc e => setEntry acc e.1 e.2) [])).Nodup :=
    nodup_keysOf_foldl_setEntry L [] (by simp [keysOf_nil])
  show jsEnum (List.insertionSort keyLe
      (jsEnum (L.foldl (fun acc e => setEntry acc e.1 e.2) []))) =
    jsEnum (L.foldl (fun acc e => setEntry acc e.1 e.2) [])
  exact jsEnum_insertionSort_jsEnum hsF hndF

/-! ## Normalizer properties -/

/-- Idempotence of the normalizer worker. -/
theorem deep_idem (sk iao : Bool) : ∀ v, deep sk iao (deep sk iao v) = deep sk iao v := by
  intro v
  induction v using JsonValue.inductionOn with
  | hnull => simp [deep]
  | hbool b => simp [deep]
  | hnum n => simp [deep]
  | hstr s => simp [deep]
  | harr xs ih =>
    rw [deep_arr]
    by_cases hio : iao
    · rw [if_pos hio, deep_arr, if_pos hio]
      have hmap : (List.insertionSort serLe (xs.map (deep sk iao))).map (deep sk iao)
          = List.insertionSort serLe (xs.map (deep sk iao)) := by
        conv_rhs => rw [← List.map_id (List.insertionSort serLe (xs.map (deep sk iao)))]
        apply List.map_congr_left
        intro y hy
        have hy2 : y ∈ xs.map (deep sk iao) := (List.mem_insertionSort serLe).mp hy
        obtain ⟨x, hx, rfl⟩ := List.mem_map.mp hy2
        exact ih x hx
      rw [hmap]
      exact congrArg JsonValue.arr (List.sorted_insertionSort serLe _).insertionSort_eq
    · rw [if_neg hio, deep_arr, if_neg hio]
      apply congrArg
      rw [List.map_map]
      apply List.map_congr_left
      intro x hx
      simp only [Function.comp_apply]
      exact ih x hx
  | hobj es ih =>
    rw [deep_obj]
    by_cases hsk : sk
    · rw [if_pos hsk, deep_obj, if_pos hsk]
      have hmapped : (fromEntries
            (List.insertionSort keyLe (es.map (fun e => (e.1, deep sk iao e.2))))).map
            (fun e => (e.1, deep sk iao e.2))
          = fromEntries (List.insertionSort keyLe (es.map (fun e => (e.1, deep sk iao e.2)))) := by
        conv_rhs => rw [← List.map_id (fromEntries
          (List.insertionSort keyLe (es.map (fun e => (e.1, deep sk iao e.2)))))]
        apply List.map_congr_left
        intro e he
        have he2 := mem_fromEntries he
        have he3 : e ∈ es.map (fun e => (e.1, deep sk iao e.2)) :=
          ((List.perm_insertionSort keyLe _).mem_iff).mp he2
        obtain ⟨e0, he0, rfl⟩ := List.mem_map.mp he3
        simp only [id_eq]
        rw [ih e0 he0]
      rw [hmapped, fromEntries_insertionSort_fromEntries (List.sorted_insertionSort keyLe _)]
    · rw [if_neg hsk, deep_obj, if_neg hsk]
      have hmapped : (fromEntries (es.map (fun e => (e.1, deep sk iao e.2)))).map
            (fun e => (e.1, deep sk iao e.2))
          = fromEntries (es.map (fun e => (e.1, deep sk iao e.2))) := by
        conv_rhs => rw [← List.map_id (fromEntries (es.map (fun e => (e.1, deep sk iao e.2))))]
        apply List.map_congr_left
        intro e he
        have he2 := mem_fromEntries he
        obtain ⟨e0, he0, rfl⟩ := List.mem_map.mp he2
        simp only [id_eq]
        rw [ih e0 he0]
      rw [hmapped, fromEntries_fromEntries]

/-- Under `ignoreArrayOrder`, the normalizer is invariant under permuting any
of the value's sequences, at any depth. -/
theorem deep_permEq (sk : Bool) : ∀ v w, PermEq v w → deep sk true v = deep sk true w := by
  have H : ∀ N : Nat, ∀ v, sizeOf v ≤ N → ∀ w, PermEq v w → deep sk true v = deep sk true w := by
    intro N
    induction N using Nat.strong_induction_on with
    | _ N IH =>
    intro v hv w hp
    cases v with
    | null => cases w <;> simp_all [PermEq]
    | bool b => cases w <;> simp_all [PermEq]
    | num n => cases w <;> simp_all [PermEq]
    | str s => cases w <;> simp_all [PermEq]
    | arr xs =>
      cases w with
      | arr ys =>
        simp only [PermEq] at hp
        obtain ⟨ms, hperm, hlen, hpt⟩ := hp
        rw [deep_arr, deep_arr, if_pos rfl, if_pos rfl]
        apply congrArg
        have hxm : xs.map (deep sk true) = ms.map (deep sk true) := by
          apply List.ext_get (by simp [hlen])
          intro n h1 h2
          simp only [List.get_map]
          have hn : n < xs.length := by simpa using h1
          have hsz : sizeOf (xs.get ⟨n, hn⟩) < N := by
            have := List.sizeOf_lt_of_mem (xs.get_mem n hn)
            simp only [JsonValue.arr.sizeOf_spec] at hv
            omega
          exact IH (sizeOf (xs.get ⟨n, hn⟩)) hsz _ le_rfl _ (hpt ⟨n, hn⟩)
        rw [hxm]
        have hp2 : (ms.map (deep sk true)).Perm (ys.map (deep sk true)) := hperm.map _
        exact List.eq_of_perm_of_sorted
          ((List.perm_insertionSort serLe _).trans
            (hp2.trans (List.perm_insertionSort serLe _).symm))
          (List.sorted_insertionSort serLe _) (List.sorted_insertionSort serLe _)
      | null => simp [PermEq] at hp
      | bool b => simp [PermEq] at hp
      | num n => simp [PermEq] at hp
      | str s => simp [PermEq] at hp
      | obj fs => simp [PermEq] at hp
    | obj es =>
      cases w with
      | obj fs =>
        simp only [PermEq] at hp
        obtain ⟨hlen, hpt⟩ := hp
        rw [deep_obj, deep_obj]
        apply congrArg
        have hmap : es.map (fun e => (e.1, deep sk true e.2))
            = fs.map (fun e => (e.1, deep sk true e.2)) := by
          apply List.ext_get (by simp [hlen])
          intro n h1 h2
          simp only [List.get_map]
          have hn : n < es.length := by simpa using h1
          obtain ⟨hk, hv2⟩ := hpt ⟨n, hn⟩
          have hsz : sizeOf ((es.get ⟨n, hn⟩).2) < N := by
            have := sizeOf_snd_lt_of_mem_entries (es.get_mem n hn)
            simp only [JsonValue.obj.sizeOf_spec] at hv
            omega
          have hval := IH (sizeOf ((es.get ⟨n, hn⟩).2)) hsz _ le_rfl _ hv2
          exact Prod.ext hk hval
        rw [hmap]
      | null => simp [PermEq] at hp
      | bool b => simp [PermEq] at hp
      | num n => simp [PermEq] at hp
      | str s => simp [PermEq] at hp
      | arr ys => simp [PermEq] at hp
  exact fun v w hp => H (sizeOf v) v le_rfl w hp

/-! ## Differencer and formatter properties -/

theorem diffLinesRec_self : ∀ l : List (List Char),
    diffLinesRec l l = l.map (fun a => ⟨false, false, String.mk a⟩) := by
  intro l
  induction l with
  | nil => rw [diffLinesRec]; rfl
  | cons a as ih =>
    rw [diffLinesRec]
    simp [ih]

theorem mk_append_mk (a b : List Char) : String.mk a ++ String.mk b = String.mk (a ++ b) := rfl

theorem foldl_append_mk : ∀ (ls : List (List Char)) (acc : List Char),
    List.foldl (fun r s => r ++ s) (String.mk acc) (ls.map String.mk) =
      String.mk (acc ++ ls.flatten) := by
  intro ls
  induction ls with
  | nil => intro acc; simp
  | cons l ls2 ih =>
    intro acc
    simp only [List.map_cons, List.foldl_cons, mk_append_mk, ih, List.flatten_cons,
      List.append_assoc]

theorem join_map_mk (ls : List (List Char)) :
    String.join (ls.map String.mk) = String.mk ls.flatten := by
  have h := foldl_append_mk ls []
  simpa [String.join] using h

theorem splitKeepNL_flatten : ∀ cs : List Char, (splitKeepNL cs).flatten = cs := by
  intro cs
  induction cs with
  | nil => rfl
  | cons c cs2 ih =>
    have hstep : splitKeepNL (c :: cs2) =
        if c = '\n' then [c] :: splitKeepNL cs2
        else
          match splitKeepNL cs2 with
          | [] => [[c]]
          | l :: ls => (c :: l) :: ls := rfl
    rw [hstep]
    by_cases hc : c = '\n'
    · rw [if_pos hc, List.flatten_cons, ih, hc]
      rfl
    · rw [if_neg hc]
      cases hsp : splitKeepNL cs2 with
      | nil =>
        rw [hsp] at ih
        simp only [List.flatten_nil] at ih
        simp [← ih]
      | cons l ls =>
        rw [hsp] at ih
        simp only [List.flatten_cons] at ih ⊢
        rw [List.cons_append, ih]

/-! ## The claims -/

/-- **C5**: `normalize` is idempotent — for every StructuredValue `v` and every
options value `o`, `normalize(normalize(v, o), o)` equals `normalize(v, o)`. -/
theorem claim5_normalize_idempotent (v : JsonValue) (o : NormOptions) :
    normalizeForCompare (normalizeForCompare v o) o = normalizeForCompare v o :=
  deep_idem o.sortKeys o.ignoreArrayOrder v

/-- **C6**: with `ignoreArrayOrder` set, `normalize` is insensitive to sequence
element order — permuting any of the value's sequences (at any depth, via
`PermEq`) does not change the normalized result. -/
theorem claim6_normalize_order_insensitive (v w : JsonValue) (o : NormOptions)
    (hio : o.ignoreArrayOrder = true) (hp : PermEq v w) :
    normalizeForCompare v o = normalizeForCompare w o := by
  unfold normalizeForCompare
  rw [hio]
  exact deep_permEq o.sortKeys v w hp

theorem claim6_witness :
    PermEq (.arr [.num 1, .num 2]) (.arr [.num 2, .num 1]) ∧
    normalizeForCompare (.arr [.num 1, .num 2]) ⟨true, true⟩ =
      normalizeForCompare (.arr [.num 2, .num 1]) ⟨true, true⟩ := by
  have hp : PermEq (.arr [.num 1, .num 2]) (.arr [.num 2, .num 1]) := by
    simp only [PermEq]
    refine ⟨[.num 1, .num 2], List.Perm.swap _ _ _, rfl, ?_⟩
    intro i
    fin_cases i <;> simp [PermEq]
  exact ⟨hp, claim6_normalize_order_insensitive _ _ ⟨true, true⟩ rfl hp⟩

/-- **C2** (amended): with `ignoreArrayOrder` set, `normalize` recursively
normalizes each sequence element and reorders the elements by the
lexicographic order of each element's **compact** serialization
(`JSON.stringify(x)` — the comparator `serLe`), *not* by the pretty canonical
serialization the Canonical Serializer produces for the diff; the result's
element list is a permutation of the normalized elements, sorted by `serLe`,
so element order is a function of normalized content, not original position. -/
theorem claim2_amended_sequence_normalization (sk : Bool) (xs : List JsonValue) :
    deep sk true (.arr xs) =
      .arr (List.insertionSort serLe (xs.map (deep sk true))) ∧
    (elemsOf (deep sk true (.arr xs))).Perm (xs.map (deep sk true)) ∧
    (elemsOf (deep sk true (.arr xs))).Sorted serLe := by
  refine ⟨by rw [deep_arr, if_pos rfl], ?_, ?_⟩
  · rw [deep_arr, if_pos rfl]
    simpa [elemsOf] using List.perm_insertionSort serLe (xs.map (deep sk true))
  · rw [deep_arr, if_pos rfl]
    simpa [elemsOf] using List.sorted_insertionSort serLe (xs.map (deep sk true))

theorem claim2_counterexample :
    normalizeForCompare (.arr [.obj [("a", .num 1)], .obj [("a", .num 1), ("b", .num 2)]])
        ⟨false, true⟩ =
      .arr [.obj [("a", .num 1), ("b", .num 2)], .obj [("a", .num 1)]] ∧
    stringifyPretty (.obj [("a", .num 1)]) <
      stringifyPretty (.obj [("a", .num 1), ("b", .num 2)]) ∧
    JsonValue.arr [.obj [("a", .num 1), ("b", .num 2)], .obj [("a", .num 1)]] ≠
      .arr [.obj [("a", .num 1)], .obj [("a", .num 1), ("b", .num 2)]] := by
  have hdA : deep false true (.obj [("a", .num 1)]) = .obj [("a", .num 1)] := by
    rw [deep_obj, if_neg (by decide)]
    simp only [List.map_cons, List.map_nil, deep_num]
    rfl
  have hdB : deep false true (.obj [("a", .num 1), ("b", .num 2)]) =
      .obj [("a", .num 1), ("b", .num 2)] := by
    rw [deep_obj, if_neg (by decide)]
    simp only [List.map_cons, List.map_nil, deep_num]
    rfl
  have hserA : serChars (.obj [("a", .num 1)]) =
      ['{', '"', 'a', '"', ':', '1', '}'] := by
    simp only [serChars, serEntries, quoteChars, escapeChars, escChar, escCode, intChars,
      natChars, natCharsAux, digitChar]
    decide
  have hserB : serChars (.obj [("a", .num 1), ("b", .num 2)]) =
      ['{', '"', 'a', '"', ':', '1', ',', '"', 'b', '"', ':', '2', '}'] := by
    simp only [serChars, serEntries, quoteChars, escapeChars, escChar, escCode, intChars,
      natChars, natCharsAux, digitChar]
    decide
  have hle : ¬serLe (.obj [("a", .num 1)]) (.obj [("a", .num 1), ("b", .num 2)]) := by
    unfold serLe stringify
    rw [hserA, hserB, String.le_iff_toList_le]
    decide
  refine ⟨?_, ?_, by simp⟩
  · unfold normalizeForCompare
    rw [deep_arr, if_pos rfl]
    simp only [List.map_cons, List.map_nil, hdA, hdB]
    rw [List.insertionSort, List.insertionSort, List.insertionSort, List.orderedInsert,
      List.orderedInsert, if_neg hle, List.orderedInsert]
  · have hpA : prettyChars 0 (.obj [("a", .num 1)]) =
        ['{', '\n', ' ', ' ', '"', 'a', '"', ':', ' ', '1', '\n', '}'] := by
      simp only [prettyChars, prettyEntries, quoteChars, escapeChars, escChar, escCode,
        intChars, natChars, natCharsAux, digitChar, indentChars]
      decide
    have hpB : prettyChars 0 (.obj [("a", .num 1), ("b", .num 2)]) =
        ['{', '\n', ' ', ' ', '"', 'a', '"', ':', ' ', '1', ',', '\n',
         ' ', ' ', '"', 'b', '"', ':', ' ', '2', '\n', '}'] := by
      simp only [prettyChars, prettyEntries, quoteChars, escapeChars, escChar, escCode,
        intChars, natChars, natCharsAux, digitChar, indentChars]
      decide
    unfold stringifyPretty
    rw [hpA, hpB, String.lt_iff_toList_lt]
    decide

theorem claim3_counterexample :
    (keysOf [("2", JsonValue.num 0), ("10", JsonValue.num 0)]).Nodup ∧
    entriesOf (deep true false (.obj [("2", JsonValue.num 0), ("10", JsonValue.num 0)])) =
      [("2", JsonValue.num 0), ("10", JsonValue.num 0)] ∧
    ¬ ([("2", JsonValue.num 0), ("10", JsonValue.num 0)] :
        List (String × JsonValue)).Sorted keyLe := by
  refine ⟨by decide, ?_, ?_⟩
  · rw [deep_obj, if_pos rfl]
    simp only [List.map_cons, List.map_nil, deep_num]
    have hk : ¬ keyLe ("2", JsonValue.num 0) ("10", JsonValue.num 0) := by
      show ¬ ("2" : String) ≤ "10"
      rw [String.le_iff_toList_le]
      decide
    rw [List.insertionSort, List.insertionSort, List.insertionSort, List.orderedInsert,
      List.orderedInsert, if_neg hk, List.orderedInsert]
    rfl
  · intro hsort
    have h2 : keyLe ("2", JsonValue.num 0) ("10", JsonValue.num 0) :=
      List.rel_of_sorted_cons hsort _ (List.mem_cons_self _ _)
    have h3 : ("2" : String) ≤ "10" := h2
    rw [String.le_iff_toList_le] at h3
    exact absurd h3 (by decide)

/-- **C3** (amended): for every mapping value whose keys are pairwise distinct
(the StructuredValue invariant) and none of which is an ECMAScript array index
(`Object.fromEntries` re-enumerates integer-like keys numerically first, which
breaks the claimed orders — see the counterexample with keys "2" and "10"):
`normalize` recursively normalizes each entry's value; with `sortKeys` it
re-emits the entries in ascending lexicographic key order (sorted by `keyLe`
and a permutation of the normalized entries), and without `sortKeys` it
preserves the original insertion order. -/
theorem claim3_amended_mapping_normalization (sk iao : Bool)
    (es : List (String × JsonValue)) (hnd : (keysOf es).Nodup)
    (hni : ∀ e ∈ es, isArrayIndex e.1 = false) :
    (sk = false →
      deep sk iao (.obj es) = .obj (es.map (fun e => (e.1, deep sk iao e.2)))) ∧
    (sk = true →
      entriesOf (deep sk iao (.obj es)) =
        List.insertionSort keyLe (es.map (fun e => (e.1, deep sk iao e.2))) ∧
      (entriesOf (deep sk iao (.obj es))).Perm
        (es.map (fun e => (e.1, deep sk iao e.2))) ∧
      (entriesOf (deep sk iao (.obj es))).Sorted keyLe) := by
  have hkeys : keysOf (es.map (fun e => (e.1, deep sk iao e.2))) = keysOf es := by
    unfold keysOf
    rw [List.map_map]
    rfl
  have hni2 : ∀ e ∈ es.map (fun e => (e.1, deep sk iao e.2)), isArrayIndex e.1 = false := by
    intro e he
    obtain ⟨e0, he0, rfl⟩ := List.mem_map.mp he
    exact hni e0 he0
  constructor
  · intro hsk
    subst hsk
    rw [deep_obj, if_neg (by decide)]
    rw [fromEntries_eq_self (by rw [hkeys]; exact hnd) hni2]
  · intro hsk
    subst hsk
    rw [deep_obj, if_pos rfl]
    have hperm : (List.insertionSort keyLe
        (es.map (fun e => (e.1, deep true iao e.2)))).Perm
        (es.map (fun e => (e.1, deep true iao e.2))) :=
      List.perm_insertionSort keyLe _
    have hnd2 : (keysOf (List.insertionSort keyLe
        (es.map (fun e => (e.1, deep true iao e.2))))).Nodup := by
      have hpk : (keysOf (List.insertionSort keyLe
          (es.map (fun e => (e.1, deep true iao e.2))))).Perm
          (keysOf (es.map (fun e => (e.1, deep true iao e.2)))) := hperm.map Prod.fst
      rw [hkeys] at hpk
      exact hpk.nodup_iff.mpr hnd
    have hni3 : ∀ e ∈ List.insertionSort keyLe
        (es.map (fun e => (e.1, deep true iao e.2))), isArrayIndex e.1 = false :=
      fun e he => hni2 e (hperm.mem_iff.mp he)
    rw [fromEntries_eq_self hnd2 hni3]
    refine ⟨rfl, ?_, ?_⟩
    · simpa [entriesOf] using
        List.perm_insertionSort keyLe (es.map (fun e => (e.1, deep true iao e.2)))
    · simpa [entriesOf] using
        List.sorted_insertionSort keyLe (es.map (fun e => (e.1, deep true iao e.2)))

theorem claim3_witness :
    (∀ e ∈ ([("b", JsonValue.num 1), ("a", JsonValue.num 2)] :
        List (String × JsonValue)), isArrayIndex e.1 = false) ∧
    (false = false →
      deep false false (.obj [("b", .num 1), ("a", .num 2)]) =
        .obj ([("b", .num 1), ("a", .num 2)].map
          (fun e => (e.1, deep false false e.2)))) ∧
    (false = true →
      entriesOf (deep false false (.obj [("b", .num 1), ("a", .num 2)])) =
        List.insertionSort keyLe ([("b", .num 1), ("a", .num 2)].map
          (fun e => (e.1, deep false false e.2))) ∧
      (entriesOf (deep false false (.obj [("b", .num 1), ("a", .num 2)]))).Perm
        ([("b", .num 1), ("a", .num 2)].map (fun e => (e.1, deep false false e.2))) ∧
      (entriesOf (deep false false (.obj [("b", .num 1), ("a", .num 2)]))).Sorted keyLe) :=
  ⟨by decide,
    claim3_amended_mapping_normalization false false [("b", .num 1), ("a", .num 2)]
      (by decide) (by decide)⟩

/-- **C7**: diffing a string against itself is the identity case — the edit
script contains only `unchanged` hunks (neither `added` nor `removed`), and
the concatenation of the hunks' text equals the input. -/
theorem claim7_diff_self_identity (x : String) :
    (∀ part ∈ diffJson x x, part.added = false ∧ part.removed = false) ∧
    String.join ((diffJson x x).map Change.value) = x := by
  constructor
  · intro part hp
    unfold diffJson at hp
    rw [diffLinesRec_self] at hp
    obtain ⟨a, _, rfl⟩ := List.mem_map.mp hp
    exact ⟨rfl, rfl⟩
  · unfold diffJson
    rw [diffLinesRec_self, List.map_map]
    have hcomp : (Change.value ∘ fun a : List Char =>
        (⟨false, false, String.mk a⟩ : Change)) = String.mk := rfl
    rw [hcomp, join_map_mk, splitKeepNL_flatten]

/-- **C8**: the two formatters agree — the text formatter's lines are exactly
the rendered lines, each prefixed with its kind's marker (`"+ "`, `"- "`,
`"  "`), and the text form joins them with line breaks; both derive their
lines by splitting each hunk's text on `'\n'` and dropping a single trailing
empty fragment, so no line appears in one output but not the other. -/
theorem claim8_formatters_agree (parts : List Change) :
    diffTextLines parts =
      (renderedLines parts).map (fun l => lineMark l.kind ++ l.content) ∧
    diffText (.changes parts) = String.intercalate "\n" (diffTextLines parts) := by
  refine ⟨?_, rfl⟩
  induction parts with
  | nil => rfl
  | cons p ps ih =>
    unfold diffTextLines renderedLines at ih ⊢
    simp only [List.flatMap_cons, List.map_append, List.map_map, ih]
    rfl

/-- **C1**: if either side's trimmed text fails to parse, the pipeline result
is the `{ error }` value — built solely from the two parse results, so
normalization, canonical serialization and diffing are not performed — for
every pair of input texts and every option setting. -/
theorem claim1_parse_failure_short_circuits (beforeText afterText : String)
    (sk iao : Bool)
    (h : (∃ e, tryParseJson (jsTrim beforeText) = .error e) ∨
      (∃ e, tryParseJson (jsTrim afterText) = .error e)) :
    useJsonDiff beforeText afterText sk iao =
      .error (jsToString (jsOr (msgOf (tryParseJson (jsTrim beforeText)))
        (msgOf (tryParseJson (jsTrim afterText))))) := by
  cases hb : tryParseJson (jsTrim beforeText) with
  | error m =>
    cases ha : tryParseJson (jsTrim afterText) <;> simp [useJsonDiff, hb, ha]
  | ok bv =>
    cases ha : tryParseJson (jsTrim afterText) with
    | error m => simp [useJsonDiff, hb, ha]
    | ok av =>
      exfalso
      rcases h with ⟨e, he⟩ | ⟨e, he⟩
      · rw [hb] at he
        simp at he
      · rw [ha] at he
        simp at he

theorem claim1_witness :
    ((∃ e, tryParseJson (jsTrim "") = .error e) ∨
      (∃ e, tryParseJson (jsTrim "") = .error e)) ∧
    useJsonDiff "" "" true false = .error "Unexpected end of JSON input" := by
  have hp : tryParseJson (jsTrim "") = .error "Unexpected end of JSON input" := rfl
  have h1 := claim1_parse_failure_short_circuits "" "" true false (Or.inl ⟨_, hp⟩)
  refine ⟨Or.inl ⟨_, hp⟩, ?_⟩
  rw [h1, hp]
  have ht : jsTruthy (.str "Unexpected end of JSON input") = true := by decide
  simp [msgOf, jsOr, ht, jsToString, jsStr]

/-- **C4** (amended): when exactly one side fails to parse, the reported
message is the failing side's decoder message verbatim, **provided** that, if
the before side failed, its decoder message is nonempty, and, if the after
side failed, the before side's parsed value does not expose a truthy
`message` property (the expression on line 37 reads `beforeParsed?.message`
off the parsed document first, and a truthy value there wins). -/
theorem claim4_amended_failing_side_message (beforeText afterText : String)
    (sk iao : Bool) :
    (∀ m v, tryParseJson (jsTrim beforeText) = .error m → m ≠ "" →
      tryParseJson (jsTrim afterText) = .ok v →
      useJsonDiff beforeText afterText sk iao = .error m) ∧
    (∀ v m, tryParseJson (jsTrim beforeText) = .ok v →
      (∀ w, msgOf (.ok v) = some w → jsTruthy w = false) →
      tryParseJson (jsTrim afterText) = .error m →
      useJsonDiff beforeText afterText sk iao = .error m) := by
  constructor
  · intro m v hb hm ha
    simp only [useJsonDiff, hb, ha]
    simp [msgOf, jsOr, jsTruthy, hm, jsToString, jsStr]
  · intro v m hb hw ha
    simp only [useJsonDiff, hb, ha]
    cases hmv : msgOf (.ok v) with
    | none => simp [jsOr, hmv, msgOf, jsToString, jsStr]
    | some w =>
      have := hw w hmv
      simp [jsOr, hmv, this, msgOf, jsToString, jsStr]

theorem claim4_counterexample :
    useJsonDiff "\x7b\"message\":\"boom\"\x7d" "not json" true true = .error "boom" ∧
    tryParseJson (jsTrim "not json") = .error "Unexpected token" ∧
    ("boom" : String) ≠ "Unexpected token" := by
  have hb : tryParseJson (jsTrim "\x7b\"message\":\"boom\"\x7d") =
      .ok (.obj [("message", .str "boom")]) := rfl
  have ha : tryParseJson (jsTrim "not json") = .error "Unexpected token" := rfl
  refine ⟨?_, rfl, by decide⟩
  have hm : msgOf (.ok (.obj [("message", .str "boom")])) = some (.str "boom") := rfl
  have ht : jsTruthy (.str "boom") = true := by decide
  simp only [useJsonDiff, hb, ha]
  simp [jsOr, hm, ht, jsToString, jsStr]

theorem claim4_witness :
    tryParseJson (jsTrim "\x7b\"a\":1\x7d") = .ok (.obj [("a", .num 1)]) ∧
    tryParseJson (jsTrim "not json") = .error "Unexpected token" ∧
    useJsonDiff "\x7b\"a\":1\x7d" "not json" true false = .error "Unexpected token" := by
  have hb : tryParseJson (jsTrim "\x7b\"a\":1\x7d") = .ok (.obj [("a", .num 1)]) := rfl
  have ha : tryParseJson (jsTrim "not json") = .error "Unexpected token" := rfl
  refine ⟨hb, ha, ?_⟩
  refine (claim4_amended_failing_side_message "\x7b\"a\":1\x7d" "not json" true false).2
    (.obj [("a", .num 1)]) "Unexpected token" hb ?_ ha
  intro w hw
  rw [show msgOf (.ok (.obj [("a", .num 1)])) = none from rfl] at hw
  cases hw

/-- **C10**: when both sides fail to parse, the reported message is the before
side's decoder message; the after side's message is used exactly when the
before side's message is the empty string (the only way a decoder message is
"absent" in the `||` chain). -/
theorem claim10_both_fail_before_message (beforeText afterText : String)
    (sk iao : Bool) (m1 m2 : String)
    (hb : tryParseJson (jsTrim beforeText) = .error m1)
    (ha : tryParseJson (jsTrim afterText) = .error m2) :
    useJsonDiff beforeText afterText sk iao =
      .error (if m1 = "" then m2 else m1) := by
  simp only [useJsonDiff, hb, ha]
  by_cases h1 : m1 = ""
  · subst h1
    simp [msgOf, jsOr, jsTruthy, jsToString, jsStr]
  · simp [msgOf, jsOr, jsTruthy, h1, jsToString, jsStr]

theorem claim10_witness :
    tryParseJson (jsTrim "") = .error "Unexpected end of JSON input" ∧
    tryParseJson (jsTrim "x") = .error "Unexpected token" ∧
    useJsonDiff "" "x" true true =
      .error (if ("Unexpected end of JSON input" : String) = "" then "Unexpected token"
        else "Unexpected end of JSON input") :=
  ⟨rfl, rfl, claim10_both_fail_before_message "" "x" true true _ _ rfl rfl⟩

/-- **C9**: the "Format JSON" action re-serializes exactly the sides that
parse successfully and never modifies a side whose parse failed — for every
pair of raw texts. -/
theorem claim9_format_frame (before after : String) :
    (∀ e, tryParseJson before = .error e → (onFormat before after).1 = before) ∧
    (∀ v, tryParseJson before = .ok v →
      (onFormat before after).1 = stringifyPretty v) ∧
    (∀ e, tryParseJson after = .error e → (onFormat before after).2 = after) ∧
    (∀ v, tryParseJson after = .ok v →
      (onFormat before after).2 = stringifyPretty v) := by
  refine ⟨?_, ?_, ?_, ?_⟩ <;> intro x hx <;> simp [onFormat, hx]

theorem claim9_witness :
    tryParseJson ("not json" : String) = .error "Unexpected token" ∧
    tryParseJson ("\x7b\"a\":1\x7d" : String) = .ok (.obj [("a", .num 1)]) ∧
    (onFormat "not json" "\x7b\"a\":1\x7d").1 = "not json" ∧
    (onFormat "not json" "\x7b\"a\":1\x7d").2 = stringifyPretty (.obj [("a", .num 1)]) := by
  have ha : tryParseJson ("not json" : String) = .error "Unexpected token" := rfl
  have hb : tryParseJson ("\x7b\"a\":1\x7d" : String) = .ok (.obj [("a", .num 1)]) := rfl
  exact ⟨ha, hb, (claim9_format_frame "not json" "\x7b\"a\":1\x7d").1 _ ha,
    (claim9_format_frame "not json" "\x7b\"a\":1\x7d").2.2.2 _ hb⟩
